import Mathlib

/-!
# Verification of the `greenbriar_scribe` cleaning/segmentation core

This file gives a shallow embedding, in Lean 4, of the pure functions of
the `greenbriar_scribe` Python package (modules `utils.py`, `clean.py`,
`layout.py`, `segment.py`, and the per-page segment-emission loop of
`core.py`), and proves or refutes the frozen claims about them.

Modelling conventions:
* Python `str` is modelled as `String` / `List Char`.
* Python `float` is modelled as `ℚ` (every division in the source is
  guarded, and the arithmetic exercised by the claims is exact).
* Python regular expressions are modelled by specialised scanners that
  implement the leftmost, greedy-with-backtracking semantics of
  `re.sub` / `re.match` / `re.fullmatch` / `re.search` for the concrete
  patterns appearing in the source.  The classes `\s`, `\d`, `\w` are
  modelled on their ASCII parts plus the common Unicode whitespace
  codepoints (the claims only exercise these).
* Python `dict` / `set` values are modelled as lists; only membership
  and counts are relevant to the claims.
-/

/- The kernel evaluation used by `decide` needs the core rational
operations to be reducible (they are `@[irreducible]` by default). -/
unseal Rat.mul Rat.inv Rat.add Rat.sub

/-! ## Character classes -/

/-- The whitespace class `\s` of the `regex` module (also used for
`str.strip()`): ASCII whitespace plus the common Unicode space
codepoints. -/
def pyWs (c : Char) : Bool :=
  c == ' ' || c == '\t' || c == '\n' || c == '\r' || c == '\x0b' || c == '\x0c' ||
  c == '\x85' || c == '\xa0' || c == '\u1680' ||
  (decide ('\u2000' ≤ c) && decide (c ≤ '\u200a')) || c == '\u2028' || c == '\u2029' ||
  c == '\u202f' || c == '\u205f' || c == '\u3000'

/-- The character class `[ \t]` (space or tab). -/
def spaceTab (c : Char) : Bool := c == ' ' || c == '\t'

/-- The character class `\d` (decimal digit; ASCII part). -/
def pyDigit (c : Char) : Bool := decide ('0' ≤ c) && decide (c ≤ '9')

/-- The character class `[A-Za-z]`. -/
def asciiLetter (c : Char) : Bool :=
  (decide ('A' ≤ c) && decide (c ≤ 'Z')) || (decide ('a' ≤ c) && decide (c ≤ 'z'))

/-- The character class `[A-Za-z0-9]`. -/
def asciiAlnum (c : Char) : Bool := asciiLetter c || pyDigit c

theorem spaceTab_ws {c : Char} (h : spaceTab c = true) : pyWs c = true := by
  unfold spaceTab at h
  rcases Bool.or_eq_true_iff.mp h with h' | h' <;> simp [pyWs, h']

theorem pyDigit_not_ws {c : Char} (h : pyDigit c = true) : pyWs c = false := by
  simp only [pyDigit, Bool.and_eq_true, decide_eq_true_eq] at h
  obtain ⟨h1, h2⟩ := h
  have v1 : ('0' : Char).val ≤ c.val := h1
  have v2 : c.val ≤ ('9' : Char).val := h2
  simp only [pyWs, Bool.or_eq_false_iff, Bool.and_eq_false_iff]
  refine ⟨⟨⟨⟨⟨⟨⟨⟨⟨⟨⟨⟨⟨⟨?_, ?_⟩, ?_⟩, ?_⟩, ?_⟩, ?_⟩, ?_⟩, ?_⟩, ?_⟩, ?_⟩, ?_⟩, ?_⟩, ?_⟩, ?_⟩, ?_⟩
  all_goals first
  | · left
      simp only [decide_eq_false_iff_not, not_le]
      exact lt_of_le_of_lt h2 (by decide)
  | · simp only [beq_eq_false_iff_ne, ne_eq]
      rintro rfl
      revert v1 v2
      decide

/-! ## Generic list/string helpers -/

theorem dropWhile_length_le (p : Char → Bool) (l : List Char) :
    (l.dropWhile p).length ≤ l.length := by
  induction l with
  | nil => simp
  | cons c t ih =>
    by_cases h : p c
    · simp only [List.dropWhile_cons_of_pos h, List.length_cons]
      exact Nat.le_succ_of_le ih
    · simp [List.dropWhile_cons_of_neg h]

theorem string_ext {a b : String} (h : a.data = b.data) : a = b := congrArg String.mk h

/-- The first list is entirely whitespace. -/
def allWs (l : List Char) : Prop := ∀ c ∈ l, pyWs c = true

/-- Boundary condition: the list is empty or starts with a non-whitespace
character (used to cut scanner recursions at run boundaries). -/
def nwHead (l : List Char) : Prop :=
  match l with
  | [] => True
  | c :: _ => pyWs c = false

theorem nwHead_dropWhile (l : List Char) : nwHead (l.dropWhile pyWs) := by
  induction l with
  | nil => trivial
  | cons c t ih =>
    by_cases h : pyWs c
    · simpa [List.dropWhile_cons_of_pos h] using ih
    · simp only [List.dropWhile_cons_of_neg h, nwHead]
      exact Bool.eq_false_iff.mpr h

theorem allWs_takeWhile (l : List Char) : allWs (l.takeWhile pyWs) :=
  fun _ hc => List.mem_takeWhile_imp hc

/-! ## `utils.py` -/

/-- `utils.normalize_line` body: `re.sub(r"\s+", " ", text or "")` —
every run of whitespace is replaced by a single space.  The flag records
whether the scanner is inside a whitespace run already consumed by a
match (the replacement space is emitted at the match start; the
remaining characters of the match are skipped). -/
def subAllWsGo : List Char → Bool → List Char
  | [], _ => []
  | c :: t, inRun =>
    if pyWs c = true then
      if inRun then subAllWsGo t true else ' ' :: subAllWsGo t true
    else c :: subAllWsGo t false

/-- `re.sub(r"\s+", " ", ·)`. -/
def subAllWs (l : List Char) : List Char := subAllWsGo l false

/-- `str.strip()` — remove leading and trailing whitespace. -/
def pyStripList (l : List Char) : List Char :=
  ((l.dropWhile pyWs).reverse.dropWhile pyWs).reverse

/-- `str.strip()` on `String`. -/
def stripStr (s : String) : String := String.mk (pyStripList s.data)

/-- `utils.normalize_line`: collapse internal whitespace runs to a single
space, then strip. -/
def normalize_line (s : String) : String := String.mk (pyStripList (subAllWs s.data))

/-- Head of the list is a whitespace character (used for a `\s+` prefix
requirement: at least one whitespace character follows). -/
def wsHead : List Char → Bool
  | [] => false
  | c :: _ => pyWs c

/-- `re.fullmatch(r"\d{1,4}", s)`: one to four digits spanning the whole
string. -/
def digits1to4 (l : List Char) : Bool :=
  !l.isEmpty && decide (l.length ≤ 4) && l.all pyDigit

/-- Case-insensitive comparison against a lower/upper pair (for the
`(?i)` flag on a literal). -/
def icChar (c lo up : Char) : Bool := c == lo || c == up

/-- The optional group `\s*/\s*\d+` of the page-number pattern, required
to span the whole remaining input (fullmatch). -/
def pageFormTail (l : List Char) : Bool :=
  match l.dropWhile pyWs with
  | '/' :: r =>
    let r2 := r.dropWhile pyWs
    !(r2.takeWhile pyDigit).isEmpty && (r2.dropWhile pyDigit).isEmpty
  | _ => false

/-- `re.fullmatch(r"(?i)page\s+\d+(\s*/\s*\d+)?", s)`. -/
def pageForm (l : List Char) : Bool :=
  match l with
  | p :: a :: g :: e :: rest =>
    icChar p 'p' 'P' && icChar a 'a' 'A' && icChar g 'g' 'G' && icChar e 'e' 'E' &&
    (!(rest.takeWhile pyWs).isEmpty &&
      (let r1 := rest.dropWhile pyWs
       let r2 := r1.dropWhile pyDigit
       !(r1.takeWhile pyDigit).isEmpty && (r2.isEmpty || pageFormTail r2)))
  | _ => false

/-- `utils.is_page_number`: normalize, reject empty, then accept a 1–4
digit integer or a (case-insensitive) `page N` / `page N / M` form. -/
def is_page_number (s : String) : Bool :=
  let stripped := normalize_line s
  if stripped.data.isEmpty then false
  else digits1to4 stripped.data || pageForm stripped.data

/-- Python `f"{n:03d}"` for a non-negative `n`: the decimal digits,
zero-padded on the left to at least three characters. -/
def pad3 (n : Nat) : String :=
  let r := toString n
  String.mk (List.replicate (3 - r.length) '0' ++ r.data)

/-- `utils.segment_id`: `f"{doc_id}-p{page:03d}-s{index:03d}"`. -/
def segment_id (docId : String) (page idx : Nat) : String :=
  docId ++ "-p" ++ pad3 page ++ "-s" ++ pad3 idx

/-! ## `clean.py`: dehyphenation -/

/-- `re.sub(r"([A-Za-z0-9])-\n([A-Za-z])", r"\1\2", text)` as a scanner:
at each position, either the four-character pattern matches (the hyphen
and newline are removed and scanning resumes after the matched letter)
or the scanner advances one character. -/
def dehyphGo : List Char → List Char
  | a :: '-' :: '\n' :: b :: rest =>
    if asciiAlnum a && asciiLetter b then a :: b :: dehyphGo rest
    else a :: dehyphGo ('-' :: '\n' :: b :: rest)
  | c :: rest => c :: dehyphGo rest
  | [] => []

/-- `clean.dehyphenate_text`. -/
def dehyphenate_text (s : String) : String := String.mk (dehyphGo s.data)

/-! ## `clean.py`: whitespace normalization -/

/-- First pass of `clean.normalize_whitespace`:
`re.sub(r"[ \t]+", " ", text)`.  The flag records whether the scanner
is inside a space/tab run already consumed by a match. -/
def subSpaceTabGo : List Char → Bool → List Char
  | [], _ => []
  | c :: t, inRun =>
    if spaceTab c = true then
      if inRun then subSpaceTabGo t true else ' ' :: subSpaceTabGo t true
    else c :: subSpaceTabGo t false

/-- `re.sub(r"[ \t]+", " ", ·)`. -/
def subSpaceTab (l : List Char) : List Char := subSpaceTabGo l false

/-- Second pass: `re.sub(r"\s+\n", "\n", text)`.  A match starting at
a whitespace character extends (greedily, with backtracking on the
final `\n`) to the last newline of the surrounding maximal whitespace
run; the consumed characters are exactly the whitespace characters that
are followed, later in their own run, by a newline — that newline
itself survives as the replacement.  The scanner therefore drops a
whitespace character precisely when a newline occurs after it in its
run. -/
def subWsNl : List Char → List Char
  | [] => []
  | c :: t =>
    if (pyWs c && (t.takeWhile pyWs).contains '\n') = true then subWsNl t
    else c :: subWsNl t

/-- Third pass: `re.sub(r"\n\s+", "\n", text)`: a newline followed by
at least one whitespace character consumes the whole following
whitespace run, so a whitespace character is dropped precisely when a
newline occurs before it in its own whitespace run.  The flag records
whether the current whitespace run has already produced a newline. -/
def subNlWsGo : List Char → Bool → List Char
  | [], _ => []
  | c :: t, sawNl =>
    if pyWs c = true then
      if sawNl then subNlWsGo t true
      else c :: subNlWsGo t (c == '\n')
    else c :: subNlWsGo t false

/-- `re.sub(r"\n\s+", "\n", ·)`. -/
def subNlWs (l : List Char) : List Char := subNlWsGo l false

/-- `clean.normalize_whitespace`: the three substitutions followed by
`str.strip()`. -/
def normalize_whitespace (s : String) : String :=
  String.mk (pyStripList (subNlWs (subWsNl (subSpaceTab s.data))))

/-! ## `clean.py`: paragraph merging -/

/-- The sentence-terminal characters of `clean._ends_sentence`
(`[。！？.!?]`). -/
def sentenceEnd (c : Char) : Bool :=
  c == '。' || c == '！' || c == '？' || c == '.' || c == '!' || c == '?'

/-- `clean._ends_sentence`: `re.search(r"[。！？.!?]\s*$", line)` — the
last non-whitespace character, if any, is a sentence terminator. -/
def endsSentence (s : String) : Bool :=
  match s.data.reverse.dropWhile pyWs with
  | c :: _ => sentenceEnd c
  | [] => false

/-- Bullet glyphs `[\-*•]`. -/
def bulletChar (c : Char) : Bool := c == '-' || c == '*' || c == '•'

/-- `re.match(r"^([\-*•]|\d+\.|\d+\)|[a-zA-Z]\))\s+", text)`: a list-item
marker followed by at least one whitespace character.  The alternation's
branches are decided by the first character (bullet / digit / letter);
for the digit branches the greedy `\d+` takes the maximal digit run (a
shorter run would be followed by another digit, not by `.` or `)`). -/
def listItemMatch (l : List Char) : Bool :=
  match l with
  | [] => false
  | c :: t =>
    if bulletChar c then wsHead t
    else if pyDigit c then
      match l.dropWhile pyDigit with
      | '.' :: r2 => wsHead r2
      | ')' :: r2 => wsHead r2
      | _ => false
    else if asciiLetter c then
      match t with
      | ')' :: t2 => wsHead t2
      | _ => false
    else false

/-- `clean._is_list_item` (also duplicated verbatim as
`segment._is_list_item` in the source). -/
def isListItem (s : String) : Bool := listItemMatch s.data

/-- Python `" ".join(...)`. -/
def joinSp : List String → String
  | [] => ""
  | [s] => s
  | s :: rest => s ++ " " ++ joinSp rest

/-- Python `text.split("\n")` (keeps empty pieces).  The accumulator
holds the current piece reversed. -/
def splitNlGo : List Char → List Char → List String
  | [], acc => [String.mk acc.reverse]
  | c :: t, acc =>
    if c = '\n' then String.mk acc.reverse :: splitNlGo t []
    else splitNlGo t (c :: acc)

/-- `text.split("\n")`. -/
def splitNl (s : String) : List String := splitNlGo s.data []

/-- Python `"\n".join(...)`. -/
def joinNl : List String → String
  | [] => ""
  | [s] => s
  | s :: rest => s ++ "\n" ++ joinNl rest

/-- One flush of the accumulation buffer: `" ".join(buffer).strip()`. -/
def flushBuf (buf : List String) : String := stripStr (joinSp buf)

/-- The loop of `clean.merge_lines_into_paragraphs`, with the paragraph
accumulator externalised as the result list (paragraphs are emitted in
the same order the Python loop appends them). -/
def mergeGo : List String → List String → List String
  | [], buf => if buf.isEmpty then [] else [flushBuf buf]
  | line :: rest, buf =>
    let s := stripStr line
    if s = "" then
      (if buf.isEmpty then [] else [flushBuf buf]) ++ mergeGo rest []
    else if isListItem s then
      (if buf.isEmpty then [] else [flushBuf buf]) ++ (s :: mergeGo rest [])
    else
      match buf.getLast? with
      | some last => if endsSentence last then flushBuf buf :: mergeGo rest [s]
                     else mergeGo rest (buf ++ [s])
      | none => mergeGo rest (buf ++ [s])

/-- `clean.merge_lines_into_paragraphs`: run the loop from an empty
buffer and drop empty paragraphs. -/
def merge_lines_into_paragraphs (lines : List String) : List String :=
  (mergeGo lines []).filter (fun p => p ≠ "")

/-! ## `clean.py`: header/footer repetition detection -/

/-- A physical text line as consumed by the repetition detector
(`{"text": ..., "bbox": ...}` with an optional bounding box). -/
structure PLine where
  text : String
  bbox : Option (ℚ × ℚ × ℚ × ℚ)
deriving DecidableEq

/-- Sort key of `detect_header_footer_lines`:
`(l.get("bbox") or [0, 0, 0, 0])[1]` — the bbox's `y0`, or `0` when the
bounding box is absent. -/
def lineKey (l : PLine) : ℚ :=
  match l.bbox with
  | some (_, y0, _, _) => y0
  | none => 0

/-- Insert into a sorted list, before the first strictly greater key
(so that, as in Python's stable `sorted`, an element placed earlier in
the input stays before later elements with an equal key). -/
def insByKey {α : Type} (key : α → ℚ) (x : α) : List α → List α
  | [] => [x]
  | y :: t => if key y < key x then y :: insByKey key x t else x :: y :: t

/-- Stable sort by a rational key (models Python's stable `sorted`). -/
def sortByKey {α : Type} (key : α → ℚ) : List α → List α
  | [] => []
  | x :: t => insByKey key x (sortByKey key t)

/-- Candidate header/footer strings contributed by one page: sort the
page's lines vertically, skip pages with no more lines than
`header_max_lines + footer_max_lines`, take the first `header_max_lines`
and last `footer_max_lines` lines, normalize, and drop empties.  Each
occurrence increments the document-wide counter, so the multiset of
candidates carries the counts. -/
def pageCandidates (hml fml : Nat) (lines : List PLine) : List String :=
  if lines.isEmpty then []
  else
    let sorted_lines := sortByKey lineKey lines
    if sorted_lines.length ≤ hml + fml then []
    else
      let header_lines := sorted_lines.take hml
      let footer_lines :=
        if 0 < fml then sorted_lines.drop (sorted_lines.length - fml) else []
      ((header_lines ++ footer_lines).map (fun l => normalize_line l.text)).filter
        (fun t => t ≠ "")

/-- All candidate occurrences of the document, in page order. -/
def hfCandidates (pages : List (List PLine)) (hml fml : Nat) : List String :=
  (pages.map (pageCandidates hml fml)).flatten

/-- `threshold = max(2, int(total_pages * min_repetition_ratio + 0.5))`
(`int` truncates; the value is non-negative whenever it exceeds the
`max` floor of 2, so truncation is `⌊·⌋`). -/
def hfThreshold (n : Nat) (r : ℚ) : ℤ := max 2 ⌊(n : ℚ) * r + 1 / 2⌋

/-- `clean.detect_header_footer_lines`: the set of candidate strings
whose document-wide occurrence count reaches the threshold; empty for
documents of fewer than two pages.  The Python `set` is modelled as the
list of distinct candidates that pass the filter. -/
def detect_header_footer_lines (pages : List (List PLine)) (hml fml : Nat) (r : ℚ) :
    List String :=
  if pages.length = 0 then []
  else if pages.length < 2 then []
  else
    (hfCandidates pages hml fml).dedup.filter
      (fun t => hfThreshold pages.length r ≤ ((hfCandidates pages hml fml).count t : ℤ))

/-! ## `layout.py` -/

/-- A layout/content block (`{"bbox": ..., "text": ..., "avg_size": ...,
"math_hint": ...}`). -/
structure Block where
  text : String
  bbox : Option (ℚ × ℚ × ℚ × ℚ)
  avg_size : Option ℚ
  math_hint : Bool
deriving DecidableEq

/-- `min(range(k), key=lambda i: abs(v - centroids[i]))` — first index
attaining the minimal distance (ties keep the earlier index, as Python's
`min` does). -/
def argminAbsGo (v : ℚ) : List ℚ → Nat → Nat → ℚ → Nat
  | [], _, bi, _ => bi
  | c :: rest, i, bi, bv =>
    if |v - c| < bv then argminAbsGo v rest (i + 1) i |v - c|
    else argminAbsGo v rest (i + 1) bi bv

/-- First index of the nearest centroid. -/
def argminAbs (v : ℚ) : List ℚ → Nat
  | [] => 0
  | c :: rest => argminAbsGo v rest 1 0 |v - c|

/-- One k-means update: assign every value to its nearest centroid and
replace each centroid by its cluster mean (keeping the old centroid for
an empty cluster). -/
def stepCentroids (values : List ℚ) (cs : List ℚ) : List ℚ :=
  (List.range cs.length).map (fun i =>
    let cluster := values.filter (fun v => argminAbs v cs == i)
    if cluster.isEmpty then cs.getD i 0
    else cluster.sum / (cluster.length : ℚ))

/-- The `for _ in range(iterations)` loop of `_kmeans_1d`, stopping early
at a fixpoint (`if new_centroids == centroids: break`). -/
def kmeansIter (values : List ℚ) (cs : List ℚ) : Nat → List ℚ
  | 0 => cs
  | fuel + 1 =>
    let nc := stepCentroids values cs
    if nc = cs then cs else kmeansIter values nc fuel

/-- Deterministic seeding of `_kmeans_1d` for `k ≥ 2`: evenly spaced
order statistics `sorted_vals[int(i * (len - 1) / (k - 1))]`. -/
def initCentroids (values : List ℚ) (k : Nat) : List ℚ :=
  let sorted_vals := sortByKey id values
  (List.range k).map (fun i =>
    sorted_vals.getD (Int.toNat ⌊((i : ℚ) * ((sorted_vals.length - 1 : Nat) : ℚ)) / ((k - 1 : Nat) : ℚ)⌋) 0)

/-- `layout._kmeans_1d`: returns (assignments, centroids). -/
def kmeans1d (values : List ℚ) (k : Nat) (iterations : Nat := 12) : List Nat × List ℚ :=
  if values.isEmpty then ([], [])
  else if k = 1 then
    (values.map (fun _ => 0), [values.sum / (values.length : ℚ)])
  else
    let cs := kmeansIter values (initCentroids values k) iterations
    (values.map (fun v => argminAbs v cs), cs)

/-- `layout._inertia`: total within-cluster squared distance. -/
def inertia (values : List ℚ) (assignments : List Nat) (cs : List ℚ) : ℚ :=
  if values.isEmpty then 0
  else ((values.zip assignments).map (fun p => (p.1 - cs.getD p.2 0) ^ 2)).sum

/-- The elbow loop of `choose_column_count` (`for k in
range(1, max_k)` with an early `break`): starting from `chosen = 1`,
accept `k + 1` while the relative inertia improvement is at least 20%,
stopping at the first failure.  `fuel` is the number of remaining
iterations (`max_k - k`). -/
def chooseGo (inertias : List ℚ) : Nat → Nat → Nat → Nat
  | 0, _, chosen => chosen
  | fuel + 1, k, chosen =>
    let base := inertias.getD (k - 1) 0
    let next_val := inertias.getD k 0
    let improvement := if 0 < base then (base - next_val) / base else 0
    if 1 / 5 ≤ improvement then chooseGo inertias fuel (k + 1) (k + 1)
    else chosen

/-- `layout.choose_column_count`: fewer than 4 left-edge coordinates ⇒ a
single column; otherwise the elbow rule over k = 1..max_k. -/
def choose_column_count (x0s : List ℚ) (max_k : Nat := 3) : Nat :=
  if x0s.length < 4 then 1
  else
    let inertias := (List.range max_k).map (fun j =>
      let ac := kmeans1d x0s (j + 1)
      inertia x0s ac.1 ac.2)
    chooseGo inertias (max_k - 1) 1 1

/-- The title test of `order_blocks`: a bounding box spanning at least
70% of a positive page width. -/
def isTitleBlock (page_width : ℚ) (b : Block) : Bool :=
  match b.bbox with
  | some (x0, _, x1, _) =>
    decide (0 < page_width) && decide ((7 : ℚ) / 10 ≤ (x1 - x0) / page_width)
  | none => false

/-- Vertical sort key `(b.get("bbox") or [0, 0, 0, 0])[1]`. -/
def blockKeyY (b : Block) : ℚ :=
  match b.bbox with
  | some (_, y0, _, _) => y0
  | none => 0

/-- `layout.order_blocks`.  The Python loop partitions into title and
regular blocks in input order (modelled by the two filters), clusters
the left edges of the bbox-bearing regular blocks, assembles the columns
(each sorted vertically), orders columns by centroid, and concatenates
after the vertically sorted title blocks. -/
def order_blocks (blocks : List Block) (page_width : ℚ) : List Block :=
  if blocks.isEmpty then []
  else
    let title_blocks := blocks.filter (isTitleBlock page_width)
    let regular_blocks := blocks.filter (fun b => !isTitleBlock page_width b)
    let title_sorted := sortByKey blockKeyY title_blocks
    let x0s := regular_blocks.filterMap (fun b =>
      match b.bbox with
      | some (x0, _, _, _) => some x0
      | none => none)
    if x0s.isEmpty then title_sorted ++ regular_blocks
    else
      let k := choose_column_count x0s
      let ac := kmeans1d x0s k
      let withBbox := regular_blocks.filter (fun b => b.bbox.isSome)
      let column := fun (i : Nat) =>
        sortByKey blockKeyY (((withBbox.zip ac.1).filter (fun p => p.2 == i)).map Prod.fst)
      let ordered_columns := sortByKey (fun p => ac.2.getD p.1 0)
        ((List.range k).map (fun i => (i, column i)))
      title_sorted ++ (ordered_columns.map Prod.snd).flatten

/-! ## `segment.py` -/

/-- `re.search(r"[_^]\{", text)`: an underscore or caret immediately
followed by an opening brace. -/
def hasSubsupMarker : List Char → Bool
  | c :: b :: t => ((c == '_' || c == '^') && b == '\x7b') || hasSubsupMarker (b :: t)
  | _ => false

/-- The mathematical-symbol class of `segment._math_score`. -/
def mathSymbol (c : Char) : Bool :=
  c == '=' || c == '<' || c == '>' || c == '±' || c == '×' || c == '÷' || c == '∑' ||
  c == '∫' || c == '√' || c == '∞' || c == '≈' || c == '≠' || c == '≤' || c == '≥' ||
  c == 'π' || c == 'θ' || c == 'λ' || c == 'μ' || c == 'Ω' || c == 'α' || c == 'β' ||
  c == 'γ' || c == 'δ' || c == 'Δ' || c == 'Σ' || c == '∏' || c == '∂'

/-- The word-character class `\w` (ASCII part). -/
def wordChar (c : Char) : Bool := asciiAlnum c || c == '_'

/-- The word `w` occurs at the head of `l` and is followed by a word
boundary. -/
def matchWordAt : List Char → List Char → Bool
  | [], l => match l with
             | [] => true
             | c :: _ => !wordChar c
  | _ :: _, [] => false
  | c :: w, d :: l => c == d && matchWordAt w l

/-- Scanner for `re.search(r"\b(sin|cos|tan|log|ln|exp)\b", text)`:
`prev` records whether the previous character was a word character (so
that a match start is at a word boundary). -/
def hasWordGo (ws : List (List Char)) : List Char → Bool → Bool
  | l, prev =>
    (!prev && ws.any (fun w => matchWordAt w l)) ||
    match l with
    | [] => false
    | c :: t => hasWordGo ws t (wordChar c)

/-- The trigonometric/logarithmic word test of `segment._math_score`. -/
def hasTrigWord (l : List Char) : Bool :=
  hasWordGo [['s','i','n'], ['c','o','s'], ['t','a','n'], ['l','o','g'], ['l','n'],
             ['e','x','p']] l false

/-- `re.search(r"\d+/\d+", text)`: since `\d+` can be a single digit,
the pattern occurs exactly when some digit is immediately followed by a
slash and another digit. -/
def hasFraction : List Char → Bool
  | a :: b :: c :: t => (pyDigit a && b == '/' && pyDigit c) || hasFraction (b :: c :: t)
  | _ => false

/-- `segment._math_score`. -/
def mathScore (s : String) : Nat :=
  (if hasSubsupMarker s.data then 2 else 0) +
  (if s.data.any mathSymbol then 2 else 0) +
  (if hasTrigWord s.data then 1 else 0) +
  (if hasFraction s.data then 1 else 0)

/-- Two adjacent spaces occur in the list. -/
def hasDoubleSpace : List Char → Bool
  | ' ' :: ' ' :: _ => true
  | _ :: t => hasDoubleSpace t
  | [] => false

/-- Scanner for `re.search(r"\d+\s+\d+\s+\d+", text)` as a token
state machine over the three disjoint character classes digit /
whitespace / other: `st` counts the progress `\d+ (st 1)`, `\s+ (st
2)`, `\d+ (st 3)`, `\s+ (st 4)`; a digit in state 4 completes a match.
A character of the `other` class can belong to no match, so it resets
the progress. -/
def threeIntsGo : List Char → Nat → Bool
  | [], _ => false
  | c :: t, st =>
    if pyDigit c then
      match st with
      | 0 => threeIntsGo t 1
      | 1 => threeIntsGo t 1
      | 2 => threeIntsGo t 3
      | 3 => threeIntsGo t 3
      | _ => true
    else if pyWs c then
      match st with
      | 0 => threeIntsGo t 0
      | 1 => threeIntsGo t 2
      | 2 => threeIntsGo t 2
      | 3 => threeIntsGo t 4
      | _ => threeIntsGo t 4
    else threeIntsGo t 0

/-- `re.search(r"\d+\s+\d+\s+\d+", text)`. -/
def hasThreeInts (l : List Char) : Bool := threeIntsGo l 0

/-- `segment._is_table_like`. -/
def isTableLike (s : String) : Bool :=
  hasDoubleSpace s.data || hasThreeInts s.data || decide (2 ≤ s.data.count '|')

/-- `segment.classify_role`: first-matching-rule role classification.
A pure function of its seven arguments.  Python truthiness of the size
arguments (`if avg_size and page_median_size`) excludes both `None` and
`0.0`; the fall-through of the two `title` rules (an oversized but long
text goes on to the bbox rule) is preserved. -/
def classify_role (text : String) (avg_size : Option ℚ) (page_median_size : Option ℚ)
    (page_width : ℚ) (bbox : Option (ℚ × ℚ × ℚ × ℚ))
    (repeated_headers_footers : List String) (math_hint : Bool) : String :=
  let norm := normalize_line text
  if norm = "" then "unknown"
  else if norm ∈ repeated_headers_footers then "header"
  else
    let math_score := mathScore norm
    if math_hint || decide (2 ≤ math_score) then
      if 4 ≤ math_score then "math_complex" else "math"
    else if isListItem norm then "list_item"
    else if isTableLike norm then "table_like"
    else if (match avg_size, page_median_size with
             | some a, some m =>
               decide (a ≠ 0) && decide (m ≠ 0) && decide (m * (13 / 10) < a)
             | _, _ => false) && decide (norm.data.length ≤ 80) then "title"
    else if (match bbox with
             | some (x0, _, x1, _) =>
               decide (0 < page_width) && decide ((7 : ℚ) / 10 ≤ (x1 - x0) / page_width)
             | none => false) && decide (norm.data.length ≤ 120) then "title"
    else "paragraph"

/-- `segment.split_block_to_paragraphs`. -/
def split_block_to_paragraphs (text : String) : List String :=
  merge_lines_into_paragraphs (splitNl text)

/-! ## `core.py`: the per-page segment-emission loop of `Scribe.process_pdf` -/

/-- The option flags read by the per-page loop (a subset of
`ScribeOptions`, immutable for the run). -/
structure PageOpts where
  multicolumn : Bool
  remove_headers_footers : Bool
  remove_page_numbers : Bool
  dehyphenate : Bool
  normalize_whitespace : Bool
  merge_paragraphs : Bool
deriving DecidableEq

/-- An emitted segment record. -/
structure Segment where
  doc_id : String
  page : Nat
  segment_id : String
  role : String
  bbox : Option (ℚ × ℚ × ℚ × ℚ)
  text : String
  source_mode : String
  confidence : Option ℚ
deriving DecidableEq

/-- Immutable per-page context threaded through the loop. -/
structure PageCtx where
  docId : String
  pageNum : Nat
  page_width : ℚ
  opts : PageOpts
  repeated : List String
  median : Option ℚ
  source_mode : String
  confidence : Option ℚ

/-- The page-median font size: sorted truthy `avg_size` values, middle
index `len // 2` (`None` when no block reports a size). -/
def pageMedianSize (blocks : List Block) : Option ℚ :=
  let font_sizes := blocks.filterMap (fun b =>
    match b.avg_size with
    | some a => if a ≠ 0 then some a else none
    | none => none)
  let sorted := sortByKey id font_sizes
  if sorted.isEmpty then none
  else some (sorted.getD (sorted.length / 2) 0)

/-- Per-block text preparation of the loop body: empty-text skip, the
two line filters, re-joining, blank skip, dehyphenation, and the
paragraph split (`none` models the loop's `continue`).  The source also
binds an unused local `norm_text` at this point, which has no effect. -/
def blockParagraphs (opts : PageOpts) (repeated : List String) (b : Block) :
    Option (List String) :=
  if b.text = "" then none
  else
    let lines := splitNl b.text
    let lines := if opts.remove_headers_footers && !repeated.isEmpty then
        lines.filter (fun l => normalize_line l ∉ repeated)
      else lines
    let lines := if opts.remove_page_numbers then
        lines.filter (fun l => !is_page_number (normalize_line l))
      else lines
    let text := joinNl lines
    if stripStr text = "" then none
    else
      let text := if opts.dehyphenate then dehyphenate_text text else text
      some (if opts.merge_paragraphs then split_block_to_paragraphs text else [text])

/-- The inner `for paragraph in paragraphs` loop: returns the emitted
segments and the next value of `segment_index`. -/
def emitParas (ctx : PageCtx) (b : Block) : List String → Nat → List Segment × Nat
  | [], idx => ([], idx)
  | para :: rest, idx =>
    let paragraph := if ctx.opts.normalize_whitespace then normalize_whitespace para else para
    if paragraph = "" then emitParas ctx b rest idx
    else
      let role := classify_role paragraph b.avg_size ctx.median ctx.page_width b.bbox
        ctx.repeated b.math_hint
      let rec_result := emitParas ctx b rest (idx + 1)
      ({ doc_id := ctx.docId, page := ctx.pageNum,
         segment_id := segment_id ctx.docId ctx.pageNum idx, role := role,
         bbox := b.bbox, text := paragraph, source_mode := ctx.source_mode,
         confidence := ctx.confidence } :: rec_result.1, rec_result.2)

/-- The outer `for block in blocks` loop. -/
def emitBlocks (ctx : PageCtx) : List Block → Nat → List Segment × Nat
  | [], idx => ([], idx)
  | b :: bs, idx =>
    match blockParagraphs ctx.opts ctx.repeated b with
    | none => emitBlocks ctx bs idx
    | some paras =>
      let pr := emitParas ctx b paras idx
      let br := emitBlocks ctx bs pr.2
      (pr.1 ++ br.1, br.2)

/-- One page of `Scribe.process_pdf`'s segment loop: optional
reading-order reconstruction, median font size, then block-by-block
paragraph emission with `segment_index` starting at 1. -/
def processPageSegments (docId : String) (pageNum : Nat) (page_width : ℚ)
    (blocks : List Block) (opts : PageOpts) (repeated : List String)
    (source_mode : String) (confidence : Option ℚ) : List Segment :=
  let blocks := if opts.multicolumn && blocks.any (fun b => b.bbox.isSome) then
      order_blocks blocks page_width
    else blocks
  let ctx : PageCtx :=
    { docId := docId, pageNum := pageNum, page_width := page_width, opts := opts,
      repeated := repeated, median := pageMedianSize blocks,
      source_mode := source_mode, confidence := confidence }
  (emitBlocks ctx blocks 1).1

/-! ## Claim C8: determinism of the role classifier -/

/-- C8: The Role Classifier is deterministic: for every pair of
invocations on identical inputs `(text, avg_size, median_size,
page_width, bbox, repeated_set, math_hint)`, the returned role is the
same.  `classify_role` is embedded as a pure function of exactly these
seven arguments (the Python source reads no module-level mutable
state), so two invocations whose arguments agree componentwise return
equal roles. -/
theorem C8_classify_role_deterministic
    (t1 t2 : String) (a1 a2 m1 m2 : Option ℚ) (w1 w2 : ℚ)
    (b1 b2 : Option (ℚ × ℚ × ℚ × ℚ)) (r1 r2 : List String) (h1 h2 : Bool)
    (ht : t1 = t2) (ha : a1 = a2) (hm : m1 = m2) (hw : w1 = w2) (hb : b1 = b2)
    (hr : r1 = r2) (hh : h1 = h2) :
    classify_role t1 a1 m1 w1 b1 r1 h1 = classify_role t2 a2 m2 w2 b2 r2 h2 := by
  rw [ht, ha, hm, hw, hb, hr, hh]

/-- Witness for C8 at a concrete input. -/
theorem C8_witness :
    classify_role "1. item" none none 600 none [] false =
      classify_role "1. item" none none 600 none [] false :=
  C8_classify_role_deterministic "1. item" "1. item" none none none none 600 600
    none none [] [] false false rfl rfl rfl rfl rfl rfl rfl

/-! ## Claim C9: totality of the pure core functions -/

/-- C9: The pure functions of the cleaning/segmentation core —
repetition detection, block ordering, text normalization (whitespace
normalization and dehyphenation), paragraph merging, and role
classification — are total over well-formed input: embedded as total
Lean functions, they return a value on every input of the data-model
types (including absent bounding boxes, empty texts and empty lists).
Every partial Python operation in their bodies (indexing, unpacking,
division) is reached only under the source's own guards, which the
embedding reproduces. -/
theorem C9_core_functions_total :
    (∀ (pages : List (List PLine)) (hml fml : Nat) (r : ℚ),
        ∃ out : List String, detect_header_footer_lines pages hml fml r = out) ∧
    (∀ (blocks : List Block) (w : ℚ), ∃ out : List Block, order_blocks blocks w = out) ∧
    (∀ s : String, ∃ out : String, normalize_whitespace s = out) ∧
    (∀ s : String, ∃ out : String, dehyphenate_text s = out) ∧
    (∀ lines : List String, ∃ out : List String, merge_lines_into_paragraphs lines = out) ∧
    (∀ (t : String) (a m : Option ℚ) (w : ℚ) (bb : Option (ℚ × ℚ × ℚ × ℚ))
        (rep : List String) (mh : Bool),
        ∃ out : String, classify_role t a m w bb rep mh = out) :=
  ⟨fun _ _ _ _ => ⟨_, rfl⟩, fun _ _ => ⟨_, rfl⟩, fun _ => ⟨_, rfl⟩, fun _ => ⟨_, rfl⟩,
    fun _ => ⟨_, rfl⟩, fun _ _ _ _ _ _ _ => ⟨_, rfl⟩⟩

/-! ## Claim C1: blocks without a bounding box -/

/-- A regular (narrow) block that carries a bounding box. -/
def c1BlockWithBox : Block := ⟨"with-box", some (0, 0, 100, 10), none, false⟩

/-- A block without a bounding box. -/
def c1BlockNoBox : Block := ⟨"no-box", none, none, false⟩

/-- C1 (bug evidence): on a page mixing a bbox-bearing block with a
bbox-less block, `order_blocks` silently DROPS the bbox-less block
instead of appending it after the clustered blocks: the loop that fills
the columns skips blocks without a bounding box (`continue`) and they
are never re-added on the clustered path (they are kept only on the
degenerate `not x0s` path).  The spec (§4.2, §7a) requires them to pass
through. -/
theorem C1_order_blocks_drops_boxless :
    order_blocks [c1BlockWithBox, c1BlockNoBox] 600 = [c1BlockWithBox] ∧
    c1BlockNoBox ∉ order_blocks [c1BlockWithBox, c1BlockNoBox] 600 := by
  constructor
  · decide
  · decide

/-! ## Claim C7: two-column reading order -/

/-- Full-width title block of the synthetic two-column page. -/
def c7Title : Block := ⟨"T", some (50, 0, 550, 10), none, false⟩

/-- Left-column blocks (left edge x = 0). -/
def c7L1 : Block := ⟨"L1", some (0, 100, 200, 150), none, false⟩

def c7L2 : Block := ⟨"L2", some (0, 300, 200, 350), none, false⟩

/-- Right-column blocks (left edge x = 400). -/
def c7R1 : Block := ⟨"R1", some (400, 100, 560, 150), none, false⟩

def c7R2 : Block := ⟨"R2", some (400, 300, 560, 350), none, false⟩

/-- C7: on a synthetic two-column page of width 600 with blocks
alternating between left edge 0 and left edge 400, the reconstructor
emits the full-width title first, then all left-column blocks
top-to-bottom, then all right-column blocks top-to-bottom; and whenever
fewer than 4 blocks carry a left-edge x-coordinate the column count is
1. -/
theorem C7_two_column_order :
    order_blocks [c7Title, c7L1, c7R1, c7L2, c7R2] 600 =
      [c7Title, c7L1, c7L2, c7R1, c7R2] ∧
    ∀ x0s : List ℚ, x0s.length < 4 → choose_column_count x0s = 1 := by
  constructor
  · decide
  · intro x0s h
    simp [choose_column_count, if_pos h]

/-- Witness for C7's single-column conjunct at a concrete input. -/
theorem C7_witness : choose_column_count [(0 : ℚ), 100, 200] = 1 :=
  C7_two_column_order.2 [(0 : ℚ), 100, 200] (by decide)

/-! ## Claim C10: page-number shapes -/

theorem takeWhile_append_all {p : Char → Bool} {A : List Char} (B : List Char)
    (hA : ∀ a ∈ A, p a = true) : (A ++ B).takeWhile p = A ++ B.takeWhile p := by
  induction A with
  | nil => simp
  | cons a A ih =>
    have ha : p a = true := hA a (by simp)
    simp only [List.cons_append, List.takeWhile_cons_of_pos ha]
    rw [ih (fun x hx => hA x (by simp [hx]))]

theorem dropWhile_append_all {p : Char → Bool} {A : List Char} (B : List Char)
    (hA : ∀ a ∈ A, p a = true) : (A ++ B).dropWhile p = B.dropWhile p := by
  induction A with
  | nil => simp
  | cons a A ih =>
    have ha : p a = true := hA a (by simp)
    simp only [List.cons_append, List.dropWhile_cons_of_pos ha]
    exact ih (fun x hx => hA x (by simp [hx]))

theorem takeWhile_eq_nil_of_head {p : Char → Bool} {B : List Char}
    (hB : ∀ c ∈ B.head?, p c = false) : B.takeWhile p = [] := by
  cases B with
  | nil => rfl
  | cons b B =>
    have hb : p b = false := hB b rfl
    rw [List.takeWhile_cons_of_neg]
    simp [hb]

theorem dropWhile_eq_self_of_head {p : Char → Bool} {B : List Char}
    (hB : ∀ c ∈ B.head?, p c = false) : B.dropWhile p = B := by
  cases B with
  | nil => rfl
  | cons b B =>
    have hb : p b = false := hB b rfl
    rw [List.dropWhile_cons_of_neg]
    simp [hb]

/-- A run of decimal digits. -/
def digitRun (l : List Char) : Prop := ∀ c ∈ l, pyDigit c = true

/-- The page-number shapes of the claim: the whitespace-normalized form
is a decimal integer of 1 to 4 digits, or, case-insensitively,
`page N` / `page N / M` (N, M decimal integers, with whitespace runs in
the positions the pattern allows). -/
def pageNumberShape (n : List Char) : Prop :=
  (n ≠ [] ∧ n.length ≤ 4 ∧ digitRun n) ∨
  (∃ (c1 c2 c3 c4 : Char) (w1 d1 tl : List Char),
    n = c1 :: c2 :: c3 :: c4 :: (w1 ++ d1 ++ tl) ∧
    (c1 = 'p' ∨ c1 = 'P') ∧ (c2 = 'a' ∨ c2 = 'A') ∧ (c3 = 'g' ∨ c3 = 'G') ∧
    (c4 = 'e' ∨ c4 = 'E') ∧
    w1 ≠ [] ∧ allWs w1 ∧ d1 ≠ [] ∧ digitRun d1 ∧
    (tl = [] ∨ ∃ (w2 w3 d2 : List Char), tl = w2 ++ '/' :: (w3 ++ d2) ∧
      allWs w2 ∧ allWs w3 ∧ d2 ≠ [] ∧ digitRun d2))

theorem digits1to4_iff (n : List Char) :
    digits1to4 n = true ↔ (n ≠ [] ∧ n.length ≤ 4 ∧ digitRun n) := by
  simp [digits1to4, List.all_eq_true, digitRun, List.isEmpty_iff, and_assoc]

theorem head_digit_not_ws {d1 : List Char} (hd : digitRun d1) :
    ∀ c ∈ d1.head?, pyWs c = false := by
  intro c hc
  exact pyDigit_not_ws (hd c (List.mem_of_mem_head? hc))

theorem head_ws_not_digit {w : List Char} (hw : allWs w) :
    ∀ c ∈ w.head?, pyDigit c = false := by
  intro c hc
  have hws := hw c (List.mem_of_mem_head? hc)
  cases h : pyDigit c
  · rfl
  · exact absurd (pyDigit_not_ws h) (by simp [hws])

theorem takeWhile_all {p : Char → Bool} {A : List Char} (hA : ∀ a ∈ A, p a = true) :
    A.takeWhile p = A := by
  have := takeWhile_append_all (p := p) [] hA
  simpa using this

theorem dropWhile_nil_all {p : Char → Bool} {A : List Char} (hA : ∀ a ∈ A, p a = true) :
    A.dropWhile p = [] := by
  have := dropWhile_append_all (p := p) [] hA
  simpa using this

theorem pageForm_iff (n : List Char) :
    pageForm n = true ↔
      (∃ (c1 c2 c3 c4 : Char) (w1 d1 tl : List Char),
        n = c1 :: c2 :: c3 :: c4 :: (w1 ++ d1 ++ tl) ∧
        (c1 = 'p' ∨ c1 = 'P') ∧ (c2 = 'a' ∨ c2 = 'A') ∧ (c3 = 'g' ∨ c3 = 'G') ∧
        (c4 = 'e' ∨ c4 = 'E') ∧
        w1 ≠ [] ∧ allWs w1 ∧ d1 ≠ [] ∧ digitRun d1 ∧
        (tl = [] ∨ ∃ (w2 w3 d2 : List Char), tl = w2 ++ '/' :: (w3 ++ d2) ∧
          allWs w2 ∧ allWs w3 ∧ d2 ≠ [] ∧ digitRun d2)) := by
  constructor
  · intro h
    rw [pageForm.eq_def] at h
    split at h
    case h_2 => exact absurd h (by simp)
    case h_1 c1 c2 c3 c4 rest =>
    simp only [Bool.and_eq_true, icChar, Bool.or_eq_true, beq_iff_eq,
      Bool.not_eq_true', List.isEmpty_eq_false] at h
    obtain ⟨⟨⟨⟨h1, h2⟩, h3⟩, h4⟩, hw1, hd1, htl⟩ := h
    refine ⟨c1, c2, c3, c4, rest.takeWhile pyWs,
      (rest.dropWhile pyWs).takeWhile pyDigit,
      (rest.dropWhile pyWs).dropWhile pyDigit, ?_, h1, h2, h3, h4, hw1, allWs_takeWhile _,
      hd1, (fun c hc => List.mem_takeWhile_imp hc), ?_⟩
    · rw [List.append_assoc, List.takeWhile_append_dropWhile,
        List.takeWhile_append_dropWhile]
    · rcases htl with htl | htl
      · left
        exact List.isEmpty_iff.mp htl
      · right
        rw [pageFormTail] at htl
        split at htl
        case _ r heq =>
          simp only [Bool.and_eq_true, Bool.not_eq_true', List.isEmpty_eq_false,
            List.isEmpty_iff] at htl
          obtain ⟨hd2, hdrop⟩ := htl
          refine ⟨((rest.dropWhile pyWs).dropWhile pyDigit).takeWhile pyWs,
            r.takeWhile pyWs, (r.dropWhile pyWs).takeWhile pyDigit, ?_,
            allWs_takeWhile _, allWs_takeWhile _, ?_, fun c hc => List.mem_takeWhile_imp hc⟩
          · conv_lhs => rw [← List.takeWhile_append_dropWhile (p := pyWs)
              (l := (rest.dropWhile pyWs).dropWhile pyDigit)]
            rw [heq]
            congr 1
            congr 1
            conv_lhs => rw [← List.takeWhile_append_dropWhile (p := pyWs) (l := r)]
            congr 1
            conv_lhs => rw [← List.takeWhile_append_dropWhile (p := pyDigit)
              (l := r.dropWhile pyWs)]
            rw [hdrop, List.append_nil]
          · exact hd2
        case _ => exact absurd htl (by simp)
  · rintro ⟨c1, c2, c3, c4, w1, d1, tl, rfl, h1, h2, h3, h4, hw1, hwsw1, hd1, hdigd1, htl⟩
    obtain ⟨dx, d1', rfl⟩ := List.exists_cons_of_ne_nil hd1
    have hdx : pyDigit dx = true := hdigd1 dx (by simp)
    have hdhead : ∀ c ∈ ((dx :: d1') ++ tl).head?, pyWs c = false := by
      intro c hc
      simp only [List.cons_append, List.head?_cons, Option.mem_def, Option.some.injEq] at hc
      subst hc
      exact pyDigit_not_ws hdx
    have htlhead : ∀ c ∈ tl.head?, pyDigit c = false := by
      rcases htl with rfl | ⟨w2, w3, d2, rfl, hw2, hw3, hd2, hdig2⟩
      · simp
      · rcases w2 with _ | ⟨wx, w2'⟩
        · intro c hc
          simp only [List.nil_append, List.head?_cons, Option.mem_def,
            Option.some.injEq] at hc
          subst hc
          decide
        · intro c hc
          simp only [List.cons_append, List.head?_cons, Option.mem_def,
            Option.some.injEq] at hc
          subst hc
          exact (head_ws_not_digit hw2) wx (by simp)
    simp only [pageForm, Bool.and_eq_true, icChar, Bool.or_eq_true, beq_iff_eq,
      Bool.not_eq_true', List.isEmpty_eq_false, List.isEmpty_iff]
    refine ⟨⟨⟨⟨h1, h2⟩, h3⟩, h4⟩, ?_, ?_, ?_⟩
    · rw [List.append_assoc, takeWhile_append_all _ hwsw1,
        takeWhile_eq_nil_of_head hdhead, List.append_nil]
      exact hw1
    · rw [List.append_assoc, dropWhile_append_all _ hwsw1,
        dropWhile_eq_self_of_head hdhead, List.cons_append,
        List.takeWhile_cons_of_pos hdx]
      simp
    · rw [List.append_assoc, dropWhile_append_all _ hwsw1,
        dropWhile_eq_self_of_head hdhead, List.cons_append,
        List.dropWhile_cons_of_pos hdx,
        dropWhile_append_all _ (fun c hc => hdigd1 c (by simp [hc])),
        dropWhile_eq_self_of_head htlhead]
      rcases htl with rfl | ⟨w2, w3, d2, rfl, hw2, hw3, hd2, hdig2⟩
      · left; rfl
      · right
        obtain ⟨ex, d2', rfl⟩ := List.exists_cons_of_ne_nil hd2
        have hex : pyDigit ex = true := hdig2 ex (by simp)
        rw [pageFormTail]
        rw [dropWhile_append_all _ hw2]
        rw [List.dropWhile_cons_of_neg (by decide)]
        simp only [Bool.and_eq_true, Bool.not_eq_true', List.isEmpty_eq_false,
          List.isEmpty_iff]
        have hexhead : ∀ c ∈ (ex :: d2').head?, pyWs c = false := by
          intro c hc
          simp only [List.head?_cons, Option.mem_def, Option.some.injEq] at hc
          subst hc
          exact pyDigit_not_ws hex
        constructor
        · rw [dropWhile_append_all _ hw3, dropWhile_eq_self_of_head hexhead,
            List.takeWhile_cons_of_pos hex]
          simp
        · rw [dropWhile_append_all _ hw3, dropWhile_eq_self_of_head hexhead,
            List.dropWhile_cons_of_pos hex,
            dropWhile_nil_all (fun c hc => hdig2 c (by simp [hc]))]

/-- Characterization of an empty normalized form. -/
theorem pageNumberShape_nil : ¬ pageNumberShape [] := by
  simp [pageNumberShape]

/-- C10: a line is page-number-shaped (and hence stripped by the
orchestrator when `remove_page_numbers` is set) exactly when its
whitespace-normalized form is a decimal integer of 1 to 4 digits or a
case-insensitive `page N` / `page N / M` form; in particular a 5-digit
integer and `12 of 30` are never page numbers. -/
theorem C10_is_page_number_iff :
    (∀ s : String, is_page_number s = true ↔ pageNumberShape (normalize_line s).data) ∧
    is_page_number "12345" = false ∧
    is_page_number "12 of 30" = false ∧
    is_page_number "page 12 / 30" = true := by
  refine ⟨?_, by decide, by decide, by decide⟩
  intro s
  simp only [is_page_number]
  by_cases hE : (normalize_line s).data.isEmpty
  · rw [if_pos hE]
    rw [List.isEmpty_iff.mp hE]
    simpa using pageNumberShape_nil
  · rw [if_neg hE, Bool.or_eq_true]
    exact or_congr (digits1to4_iff _) (pageForm_iff _)

/-! ## Claim C2: the repetition threshold -/

/-- The threshold formula as the claim/spec words it:
`max(2, round(N * r + 0.5))`, with `round` denoting rounding to the
nearest integer.  The code computes `int(N * r + 0.5)` (truncation)
instead; the two differ whenever `N * r` has fractional part in
`(0, 1/2)`, e.g. `N = 7`, `r = 0.6`. -/
def hfThresholdClaim (n : Nat) (r : ℚ) : ℤ := max 2 (round ((n : ℚ) * r + 1 / 2))

theorem hfThreshold_ge_two (n : Nat) (r : ℚ) : (2 : ℤ) ≤ hfThreshold n r :=
  le_max_left _ _

/-- C2 (amended): membership in the repeated set is exactly
`N ≥ 2` together with the occurrence count reaching
`max(2, ⌊N * r + 0.5⌋)` (the truncation the code's `int` performs); for
fewer than 2 pages the set is empty; and for `N = 3`, `r = 0.6` a
candidate occurring twice is repeated. -/
theorem C2_repetition_threshold :
    ∀ (pages : List (List PLine)) (hml fml : Nat) (r : ℚ),
      (∀ s : String, s ∈ detect_header_footer_lines pages hml fml r ↔
        (2 ≤ pages.length ∧
          hfThreshold pages.length r ≤ ((hfCandidates pages hml fml).count s : ℤ))) ∧
      (pages.length < 2 → detect_header_footer_lines pages hml fml r = []) ∧
      (pages.length = 3 → ∀ s : String,
        2 ≤ (hfCandidates pages hml fml).count s →
        s ∈ detect_header_footer_lines pages hml fml (3 / 5)) := by
  have main : ∀ (pages : List (List PLine)) (hml fml : Nat) (r : ℚ) (s : String),
      s ∈ detect_header_footer_lines pages hml fml r ↔
        (2 ≤ pages.length ∧
          hfThreshold pages.length r ≤ ((hfCandidates pages hml fml).count s : ℤ)) := by
    intro pages hml fml r s
    rw [detect_header_footer_lines]
    by_cases h0 : pages.length = 0
    · rw [if_pos h0]
      simp [h0]
    · rw [if_neg h0]
      by_cases h1 : pages.length < 2
      · rw [if_pos h1]
        simp only [List.not_mem_nil, false_iff, not_and]
        intro h2
        omega
      · rw [if_neg h1]
        rw [List.mem_filter]
        constructor
        · rintro ⟨-, hp⟩
          simp only [decide_eq_true_eq] at hp
          exact ⟨by omega, hp⟩
        · rintro ⟨-, hp⟩
          refine ⟨?_, by simpa using hp⟩
          rw [List.mem_dedup]
          have h2 : (2 : ℤ) ≤ ((hfCandidates pages hml fml).count s : ℤ) :=
            le_trans (hfThreshold_ge_two _ _) hp
          have hcpos : 0 < (hfCandidates pages hml fml).count s := by
            exact_mod_cast lt_of_lt_of_le (show (0 : ℤ) < 2 by norm_num) h2
          exact List.count_pos_iff.mp hcpos
  intro pages hml fml r
  refine ⟨main pages hml fml r, ?_, ?_⟩
  · intro hlt
    rw [detect_header_footer_lines]
    by_cases h0 : pages.length = 0
    · rw [if_pos h0]
    · rw [if_neg h0, if_pos hlt]
  · intro h3 s hcount
    rw [main pages hml fml (3 / 5)]
    refine ⟨by omega, ?_⟩
    have : hfThreshold pages.length (3 / 5) = 2 := by
      rw [h3]
      decide
    rw [this]
    exact_mod_cast hcount

/-- A bbox-bearing line at height `y`. -/
def c2Line (t : String) (y : ℚ) : PLine := ⟨t, some (0, y, 10, y + 1)⟩

/-- A three-line page: header (top), body (middle), footer (bottom). -/
def c2Page (hd bd ft : String) : List PLine := [c2Line hd 0, c2Line bd 50, c2Line ft 100]

/-- Three pages on two of which the header line is `X`. -/
def c2Pages3 : List (List PLine) :=
  [c2Page "X" "b1" "f1", c2Page "X" "b2" "f2", c2Page "Y" "b3" "f3"]

/-- Witness for C2 at a concrete input: on the three-page document the
header `X`, occurring twice, is repeated at ratio `0.6`. -/
theorem C2_witness : "X" ∈ detect_header_footer_lines c2Pages3 1 1 (3 / 5) :=
  (C2_repetition_threshold c2Pages3 1 1 (3 / 5)).2.2 (by decide) "X" (by decide)

/-- Seven pages, four of which carry the header `X`. -/
def c2Pages7 : List (List PLine) :=
  [c2Page "X" "b1" "f1", c2Page "X" "b2" "f2", c2Page "X" "b3" "f3",
   c2Page "X" "b4" "f4", c2Page "Y1" "b5" "f5", c2Page "Y2" "b6" "f6",
   c2Page "Y3" "b7" "f7"]

/-- C2 counterexample: with `N = 7` pages and `r = 0.6` the code's
threshold is `max(2, int(4.7)) = 4`, so the header `X` occurring 4
times IS in the repeated set, while the claim's formula
`max(2, round(4.7)) = 5` says it should not be: the claimed
equivalence fails at this input. -/
theorem C2_counterexample :
    ¬(("X" ∈ detect_header_footer_lines c2Pages7 1 1 (3 / 5)) ↔
      (2 ≤ c2Pages7.length ∧
        hfThresholdClaim c2Pages7.length (3 / 5) ≤
          ((hfCandidates c2Pages7 1 1).count "X" : ℤ))) := by
  decide

/-! ## Claim C3: segment identifiers and per-page sequence indices -/

theorem emitParas_ids (ctx : PageCtx) (b : Block) :
    ∀ (paras : List String) (idx : Nat),
      (emitParas ctx b paras idx).2 = idx + (emitParas ctx b paras idx).1.length ∧
      ∀ (i : Nat) (h : i < (emitParas ctx b paras idx).1.length),
        ((emitParas ctx b paras idx).1.get ⟨i, h⟩).segment_id =
          segment_id ctx.docId ctx.pageNum (idx + i) := by
  intro paras
  induction paras with
  | nil =>
    intro idx
    refine ⟨by simp [emitParas], ?_⟩
    intro i h
    simp [emitParas] at h
  | cons para rest ih =>
    intro idx
    by_cases hP : (if ctx.opts.normalize_whitespace = true then normalize_whitespace para
        else para) = ""
    · have he : emitParas ctx b (para :: rest) idx = emitParas ctx b rest idx := by
        rw [emitParas, if_pos hP]
      rw [he]
      exact ih idx
    · have he : emitParas ctx b (para :: rest) idx =
          ({ doc_id := ctx.docId, page := ctx.pageNum,
             segment_id := segment_id ctx.docId ctx.pageNum idx,
             role := classify_role
               (if ctx.opts.normalize_whitespace = true then normalize_whitespace para
                else para) b.avg_size ctx.median ctx.page_width b.bbox ctx.repeated
               b.math_hint,
             bbox := b.bbox,
             text := (if ctx.opts.normalize_whitespace = true then normalize_whitespace para
               else para),
             source_mode := ctx.source_mode, confidence := ctx.confidence }
            :: (emitParas ctx b rest (idx + 1)).1,
           (emitParas ctx b rest (idx + 1)).2) := by
        rw [emitParas, if_neg hP]
      rw [he]
      obtain ⟨ihlen, ihget⟩ := ih (idx + 1)
      constructor
      · simp only [List.length_cons, ihlen]
        omega
      · intro i h
        cases i with
        | zero => simp [segment_id]
        | succ j =>
          simp only [List.length_cons, Nat.succ_lt_succ_iff] at h
          have hj := ihget j h
          simp only [List.get_cons_succ, hj]
          congr 1
          omega

theorem emitBlocks_ids (ctx : PageCtx) :
    ∀ (blocks : List Block) (idx : Nat),
      (emitBlocks ctx blocks idx).2 = idx + (emitBlocks ctx blocks idx).1.length ∧
      ∀ (i : Nat) (h : i < (emitBlocks ctx blocks idx).1.length),
        ((emitBlocks ctx blocks idx).1.get ⟨i, h⟩).segment_id =
          segment_id ctx.docId ctx.pageNum (idx + i) := by
  intro blocks
  induction blocks with
  | nil =>
    intro idx
    refine ⟨by simp [emitBlocks], ?_⟩
    intro i h
    simp [emitBlocks] at h
  | cons b bs ih =>
    intro idx
    cases hbp : blockParagraphs ctx.opts ctx.repeated b with
    | none =>
      have he : emitBlocks ctx (b :: bs) idx = emitBlocks ctx bs idx := by
        rw [emitBlocks, hbp]
      rw [he]
      exact ih idx
    | some paras =>
      have he : emitBlocks ctx (b :: bs) idx =
          ((emitParas ctx b paras idx).1 ++
             (emitBlocks ctx bs (emitParas ctx b paras idx).2).1,
           (emitBlocks ctx bs (emitParas ctx b paras idx).2).2) := by
        rw [emitBlocks, hbp]
      rw [he]
      obtain ⟨plen, pget⟩ := emitParas_ids ctx b paras idx
      obtain ⟨blen, bget⟩ := ih (emitParas ctx b paras idx).2
      constructor
      · simp only [List.length_append]
        rw [blen, plen]
        omega
      · intro i h
        by_cases hi : i < (emitParas ctx b paras idx).1.length
        · rw [List.get_append i hi]
          exact pget i hi
        · push_neg at hi
          have h3 : i - (emitParas ctx b paras idx).1.length <
              (emitBlocks ctx bs (emitParas ctx b paras idx).2).1.length := by
            have h4 := h
            simp only [List.length_append] at h4
            omega
          rw [List.get_append_right _ _ hi]
          rw [bget _ h3]
          rw [plen]
          congr 1
          omega

/-- C3: every emitted segment's identifier is
`doc_id ++ "-p" ++ page (3-digit zero-padded) ++ "-s" ++ index
(3-digit zero-padded)`, and within a page the emission indices are
exactly `1, 2, 3, …` in order: the `i`-th emitted segment (0-based)
carries index `i + 1` — strictly increasing, starting at 1, with no
gaps; paragraphs dropped as empty consume no index. -/
theorem C3_segment_ids
    (docId : String) (pageNum : Nat) (w : ℚ) (blocks : List Block) (opts : PageOpts)
    (repeated : List String) (sm : String) (conf : Option ℚ) (i : Nat)
    (h : i < (processPageSegments docId pageNum w blocks opts repeated sm conf).length) :
    ((processPageSegments docId pageNum w blocks opts repeated sm conf).get
        ⟨i, h⟩).segment_id =
      docId ++ "-p" ++ pad3 pageNum ++ "-s" ++ pad3 (i + 1) := by
  have hg := (emitBlocks_ids
    { docId := docId, pageNum := pageNum, page_width := w, opts := opts,
      repeated := repeated,
      median := pageMedianSize (if opts.multicolumn && blocks.any (fun b => b.bbox.isSome)
        then order_blocks blocks w else blocks),
      source_mode := sm, confidence := conf }
    (if opts.multicolumn && blocks.any (fun b => b.bbox.isSome)
      then order_blocks blocks w else blocks) 1).2 i h
  rw [show ((processPageSegments docId pageNum w blocks opts repeated sm conf).get
        ⟨i, h⟩).segment_id =
      ((emitBlocks
        { docId := docId, pageNum := pageNum, page_width := w, opts := opts,
          repeated := repeated,
          median := pageMedianSize
            (if opts.multicolumn && blocks.any (fun b => b.bbox.isSome)
              then order_blocks blocks w else blocks),
          source_mode := sm, confidence := conf }
        (if opts.multicolumn && blocks.any (fun b => b.bbox.isSome)
          then order_blocks blocks w else blocks) 1).1.get ⟨i, h⟩).segment_id from rfl]
  rw [hg, segment_id]
  congr 2
  omega

/-- Witness for C3 at a concrete one-block page. -/
theorem C3_witness :
    ((processPageSegments "d" 1 600 [⟨"Hi.", none, none, false⟩]
        ⟨false, false, false, false, false, false⟩ [] "extract:text" none).get
      ⟨0, by decide⟩).segment_id = "d" ++ "-p" ++ pad3 1 ++ "-s" ++ pad3 (0 + 1) :=
  C3_segment_ids "d" 1 600 [⟨"Hi.", none, none, false⟩]
    ⟨false, false, false, false, false, false⟩ [] "extract:text" none 0 (by decide)

/-! ## Claim C4: dehyphenation -/

/-- The input contains an eligible hyphenation site
(`[A-Za-z0-9]-\n[A-Za-z]`). -/
def hasHyphSite (l : List Char) : Prop :=
  ∃ (p q : List Char) (a b : Char),
    l = p ++ a :: '-' :: '\n' :: b :: q ∧ asciiAlnum a = true ∧ asciiLetter b = true

theorem dehyphGo_no_site : ∀ l : List Char, ¬ hasHyphSite l → dehyphGo l = l := by
  intro l
  induction l with
  | nil => intro _; rfl
  | cons c t ih =>
    intro hns
    have hstep : dehyphGo (c :: t) = c :: dehyphGo t := by
      conv_lhs => rw [dehyphGo.eq_def]
      split
      · next x a b rest heq =>
        injection heq with h1 h2
        subst h1
        subst h2
        rw [if_neg]
        intro hcond
        simp only [Bool.and_eq_true] at hcond
        exact hns ⟨[], rest, c, b, rfl, hcond.1, hcond.2⟩
      · next x c2 t2 hno heq =>
        injection heq with h1 h2
        subst h1
        subst h2
        rfl
      · next x heq =>
        exact absurd heq (by simp)
    rw [hstep]
    rw [ih]
    intro hsite
    obtain ⟨p, q, a, b, he, ha, hb⟩ := hsite
    exact hns ⟨c :: p, q, a, b, by rw [he]; rfl, ha, hb⟩

theorem no_site_of_no_newline {l : List Char} (h : '\n' ∉ l) : ¬ hasHyphSite l := by
  rintro ⟨p, q, a, b, rfl, -, -⟩
  exact h (by simp)

/-- C4 counterexample: dehyphenation is NOT idempotent.  On
`"a-\na-\nb"` one application yields `"aa-\nb"` (the scan resumes after
the consumed letter, so the second junction is not seen), and a second
application yields `"aab"`. -/
theorem C4_counterexample :
    dehyphenate_text (dehyphenate_text "a-\na-\nb") ≠ dehyphenate_text "a-\na-\nb" := by
  decide

/-- C4 (amended): dehyphenation maps `"demon-\nstration"` to
`"demonstration"`; it joins a minimal site exactly when the character
before the hyphen is alphanumeric and the character after the break is
a letter; an input with no eligible site (in particular one with no
newline at all, such as a lone line ending in `-`) is left unchanged.
It is not idempotent in general (see the counterexample). -/
theorem C4_dehyphenation_scoped :
    dehyphenate_text "demon-\nstration" = "demonstration" ∧
    (∀ a b : Char, dehyphenate_text (String.mk [a, '-', '\n', b]) =
      (if asciiAlnum a && asciiLetter b then String.mk [a, b]
       else String.mk [a, '-', '\n', b])) ∧
    (∀ s : String, ¬ hasHyphSite s.data → dehyphenate_text s = s) ∧
    (∀ s : String, '\n' ∉ s.data → dehyphenate_text s = s) := by
  refine ⟨by decide, ?_, ?_, ?_⟩
  · intro a b
    by_cases h : (asciiAlnum a && asciiLetter b) = true
    · rw [if_pos h]
      rw [dehyphenate_text]
      apply string_ext
      show dehyphGo [a, '-', '\n', b] = [a, b]
      rw [dehyphGo]
      rw [if_pos h]
      rfl
    · rw [if_neg h]
      rw [dehyphenate_text]
      apply string_ext
      show dehyphGo [a, '-', '\n', b] = [a, '-', '\n', b]
      have h3 : ¬ hasHyphSite ['-', '\n', b] := by
        rintro ⟨p, q, a', b', he, -, -⟩
        have hlen := congrArg List.length he
        simp [List.length_append] at hlen
        omega
      rw [dehyphGo, if_neg h, dehyphGo_no_site _ h3]
  · intro s hns
    rw [dehyphenate_text]
    apply string_ext
    exact dehyphGo_no_site s.data hns
  · intro s hnl
    rw [dehyphenate_text]
    apply string_ext
    exact dehyphGo_no_site s.data (no_site_of_no_newline hnl)

/-- Witness for C4's conditional conjuncts at concrete inputs. -/
theorem C4_witness :
    dehyphenate_text (String.mk ['x', '-', '\n', 'y']) =
      (if asciiAlnum 'x' && asciiLetter 'y' then String.mk ['x', 'y']
       else String.mk ['x', '-', '\n', 'y']) ∧
    dehyphenate_text "well-" = "well-" :=
  ⟨C4_dehyphenation_scoped.2.1 'x' 'y',
   C4_dehyphenation_scoped.2.2.2 "well-" (by decide)⟩

/-! ## Claim C6: paragraph merging -/

/-- One-step unfolding of the merge loop on a cons cell. -/
theorem mergeGo_cons (line : String) (rest buf : List String) :
    mergeGo (line :: rest) buf =
      (if stripStr line = "" then
        (if buf.isEmpty then [] else [flushBuf buf]) ++ mergeGo rest []
      else if isListItem (stripStr line) then
        (if buf.isEmpty then [] else [flushBuf buf]) ++ (stripStr line :: mergeGo rest [])
      else
        match buf.getLast? with
        | some last => if endsSentence last then flushBuf buf :: mergeGo rest [stripStr line]
                       else mergeGo rest (buf ++ [stripStr line])
        | none => mergeGo rest (buf ++ [stripStr line])) := by
  rw [mergeGo]

theorem isListItem_ne_empty {s : String} (h : isListItem s = true) : s ≠ "" := by
  intro he
  rw [he] at h
  exact absurd h (by decide)

/-- Hitting a list-item line flushes the pending buffer, emits the
stripped line alone, and restarts the loop with an empty buffer. -/
theorem mergeGo_list_item_split (l : String) (hl : isListItem (stripStr l) = true) :
    ∀ (pre : List String) (post : List String) (buf : List String),
      mergeGo (pre ++ l :: post) buf =
        mergeGo pre buf ++ stripStr l :: mergeGo post [] := by
  have hs : stripStr l ≠ "" := isListItem_ne_empty hl
  intro pre
  induction pre with
  | nil =>
    intro post buf
    simp only [List.nil_append]
    rw [mergeGo_cons, if_neg hs, if_pos hl]
    rw [mergeGo]
  | cons p0 pre ih =>
    intro post buf
    simp only [List.cons_append]
    rw [mergeGo_cons, mergeGo_cons]
    by_cases h1 : stripStr p0 = ""
    · rw [if_pos h1, if_pos h1, ih]
      simp [List.append_assoc]
    · rw [if_neg h1, if_neg h1]
      by_cases h2 : isListItem (stripStr p0)
      · rw [if_pos h2, if_pos h2, ih]
        simp [List.append_assoc]
      · rw [if_neg h2, if_neg h2]
        cases hbl : buf.getLast? with
        | none =>
          dsimp only
          exact ih post (buf ++ [stripStr p0])
        | some last =>
          dsimp only
          by_cases h3 : endsSentence last
          · rw [if_pos h3, if_pos h3, ih]
            simp
          · rw [if_neg h3, if_neg h3]
            exact ih post (buf ++ [stripStr p0])

theorem data_ne_nil_of_ne_empty {s : String} (h : s ≠ "") : s.data ≠ [] := by
  intro hd
  exact h (string_ext (by rw [hd]))

/-- The `" ".join` of a buffer containing two adjacent cells keeps them
adjacent, separated by one space. -/
theorem joinSp_adjacent (s1 s2 : String) :
    ∀ (b0 c : List String), ∃ x y : List Char,
      (joinSp (b0 ++ s1 :: s2 :: c)).data = x ++ (s1.data ++ ' ' :: s2.data) ++ y := by
  intro b0
  induction b0 with
  | nil =>
    intro c
    cases c with
    | nil =>
      refine ⟨[], [], ?_⟩
      show (s1 ++ " " ++ joinSp [s2]).data = _
      simp [joinSp, String.data_append]
    | cons d c' =>
      refine ⟨[], (" " ++ joinSp (d :: c')).data, ?_⟩
      show (s1 ++ " " ++ joinSp (s2 :: d :: c')).data = _
      show (s1 ++ " " ++ (s2 ++ " " ++ joinSp (d :: c'))).data = _
      simp [String.data_append]
  | cons b b0' ih =>
    intro c
    obtain ⟨x, y, hxy⟩ := ih c
    refine ⟨(b ++ " ").data ++ x, y, ?_⟩
    have hne : b0' ++ s1 :: s2 :: c ≠ [] := by simp
    obtain ⟨hd, tl, hht⟩ := List.exists_cons_of_ne_nil hne
    show (joinSp (b :: (b0' ++ s1 :: s2 :: c))).data = _
    rw [hht]
    show (b ++ " " ++ joinSp (hd :: tl)).data = _
    rw [← hht, String.data_append, String.data_append, hxy]
    simp [String.data_append]

/-- Dropping a whitespace prefix of `x ++ m` never eats into `m` when
`m` starts with a non-whitespace character. -/
theorem dropWhile_ws_append_keeps {m : List Char} (hm : ∀ c ∈ m.head?, pyWs c = false) :
    ∀ x : List Char, ∃ x1, (x ++ m).dropWhile pyWs = x1 ++ m := by
  intro x
  induction x with
  | nil =>
    refine ⟨[], ?_⟩
    simpa using dropWhile_eq_self_of_head hm
  | cons c x' ih =>
    by_cases hc : pyWs c
    · obtain ⟨x1, h1⟩ := ih
      refine ⟨x1, ?_⟩
      simpa [List.dropWhile_cons_of_pos hc] using h1
    · refine ⟨c :: x', ?_⟩
      simp [List.dropWhile_cons_of_neg hc]

/-- `strip` keeps any infix whose first and last characters are not
whitespace. -/
theorem pyStripList_keeps_infix {I : List Char} (hne : I ≠ [])
    (hh : ∀ c ∈ I.head?, pyWs c = false) (hl : ∀ c ∈ I.getLast?, pyWs c = false) :
    ∀ x y : List Char, ∃ x' y', pyStripList (x ++ I ++ y) = x' ++ I ++ y' := by
  intro x y
  have hhead : ∀ c ∈ (I ++ y).head?, pyWs c = false := by
    obtain ⟨i0, I', rfl⟩ := List.exists_cons_of_ne_nil hne
    simpa using hh
  obtain ⟨x1, h1⟩ := dropWhile_ws_append_keeps hhead (x := x)
  have hL : (x ++ I ++ y).dropWhile pyWs = x1 ++ I ++ y := by
    rw [List.append_assoc, h1, List.append_assoc]
  have hrev : (x1 ++ I ++ y).reverse = y.reverse ++ (I.reverse ++ x1.reverse) := by
    simp [List.reverse_append, List.append_assoc]
  have hmh : ∀ c ∈ (I.reverse ++ x1.reverse).head?, pyWs c = false := by
    have hIr : I.reverse ≠ [] := by simpa using hne
    obtain ⟨j0, J', hJ⟩ := List.exists_cons_of_ne_nil hIr
    intro c hc
    rw [hJ] at hc
    simp only [List.cons_append, List.head?_cons, Option.mem_def, Option.some.injEq] at hc
    subst hc
    apply hl
    rw [← List.head?_reverse, hJ]
    rfl
  obtain ⟨y1, h2⟩ := dropWhile_ws_append_keeps hmh (x := y.reverse)
  refine ⟨x1, y1.reverse, ?_⟩
  rw [pyStripList, hL, hrev, h2]
  simp [List.reverse_append, List.append_assoc]

theorem getLast?_dropWhile (p : Char → Bool) (X : List Char) :
    (X.dropWhile p).getLast? = X.getLast? ∨ X.dropWhile p = [] := by
  induction X with
  | nil => right; rfl
  | cons c X' ih =>
    by_cases hc : p c
    · rw [List.dropWhile_cons_of_pos hc]
      rcases hX : X' with _ | ⟨d, X''⟩
      · right
        rfl
      · rw [← hX]
        rcases ih with ih | ih
        · left
          rw [ih, hX, List.getLast?_cons_cons]
        · right
          exact ih
    · left
      rw [List.dropWhile_cons_of_neg hc]

/-- The output of `strip` neither starts nor ends with whitespace. -/
theorem pyStripList_no_ws_ends (l : List Char) :
    (∀ c ∈ (pyStripList l).head?, pyWs c = false) ∧
    (∀ c ∈ (pyStripList l).getLast?, pyWs c = false) := by
  rw [pyStripList]
  constructor
  · rw [List.head?_reverse]
    rcases getLast?_dropWhile pyWs (l.dropWhile pyWs).reverse with h | h
    · rw [h, List.getLast?_reverse]
      intro c hc
      have := List.head?_dropWhile_not pyWs l
      rw [Option.mem_def] at hc
      rw [hc] at this
      exact this
    · rw [h]
      simp
  · rw [List.getLast?_reverse]
    intro c hc
    have := List.head?_dropWhile_not pyWs (l.dropWhile pyWs).reverse
    rw [Option.mem_def] at hc
    rw [hc] at this
    exact this

/-- A flushed buffer with two adjacent cells contains them, space
separated, as an infix. -/
theorem flushBuf_adjacent {s1 s2 : String}
    (h1 : s1.data ≠ []) (h2 : s2.data ≠ [])
    (hh : ∀ c ∈ s1.data.head?, pyWs c = false)
    (hl : ∀ c ∈ s2.data.getLast?, pyWs c = false)
    (b0 c : List String) :
    ∃ x y : List Char,
      (flushBuf (b0 ++ s1 :: s2 :: c)).data = x ++ (s1.data ++ ' ' :: s2.data) ++ y := by
  obtain ⟨x, y, hxy⟩ := joinSp_adjacent s1 s2 b0 c
  have hne : s1.data ++ ' ' :: s2.data ≠ [] := by simp
  have hh' : ∀ ch ∈ (s1.data ++ ' ' :: s2.data).head?, pyWs ch = false := by
    obtain ⟨a0, s1', hs1⟩ := List.exists_cons_of_ne_nil h1
    rw [hs1]
    simpa [hs1] using hh
  have hl' : ∀ ch ∈ (s1.data ++ ' ' :: s2.data).getLast?, pyWs ch = false := by
    intro ch hc
    apply hl
    rw [List.getLast?_append_of_ne_nil] at hc
    · obtain ⟨b2, s2', hs2⟩ := List.exists_cons_of_ne_nil h2
      rw [hs2] at hc ⊢
      rwa [List.getLast?_cons_cons] at hc
    · simp
  obtain ⟨x', y', hxy'⟩ := pyStripList_keeps_infix hne hh' hl' x y
  refine ⟨x', y', ?_⟩
  show (stripStr (joinSp (b0 ++ s1 :: s2 :: c))).data = _
  rw [stripStr]
  show pyStripList (joinSp (b0 ++ s1 :: s2 :: c)).data = _
  rw [hxy, hxy']

/-- Once two adjacent non-list cells sit in the buffer, whatever the
rest of the input does, some emitted paragraph contains them adjacent
(the buffer only grows at its end until it is flushed whole). -/
theorem mergeGo_adjacent {s1 s2 : String}
    (h1 : s1.data ≠ []) (h2 : s2.data ≠ [])
    (hh : ∀ c ∈ s1.data.head?, pyWs c = false)
    (hl : ∀ c ∈ s2.data.getLast?, pyWs c = false) :
    ∀ (rest : List String) (b0 c : List String),
      ∃ p ∈ mergeGo rest (b0 ++ s1 :: s2 :: c),
        ∃ x y : List Char, p.data = x ++ (s1.data ++ ' ' :: s2.data) ++ y := by
  intro rest
  induction rest with
  | nil =>
    intro b0 c
    rw [mergeGo]
    rw [if_neg (by simp)]
    obtain ⟨x, y, hxy⟩ := flushBuf_adjacent h1 h2 hh hl b0 c
    exact ⟨flushBuf (b0 ++ s1 :: s2 :: c), by simp, x, y, hxy⟩
  | cons r rest ih =>
    intro b0 c
    rw [mergeGo_cons]
    by_cases hb1 : stripStr r = ""
    · rw [if_pos hb1, if_neg (show ¬(b0 ++ s1 :: s2 :: c).isEmpty = true by simp)]
      obtain ⟨x, y, hxy⟩ := flushBuf_adjacent h1 h2 hh hl b0 c
      exact ⟨flushBuf (b0 ++ s1 :: s2 :: c), by simp, x, y, hxy⟩
    · rw [if_neg hb1]
      by_cases hb2 : isListItem (stripStr r)
      · rw [if_pos hb2, if_neg (show ¬(b0 ++ s1 :: s2 :: c).isEmpty = true by simp)]
        obtain ⟨x, y, hxy⟩ := flushBuf_adjacent h1 h2 hh hl b0 c
        exact ⟨flushBuf (b0 ++ s1 :: s2 :: c), by simp, x, y, hxy⟩
      · rw [if_neg hb2]
        cases hbl : (b0 ++ s1 :: s2 :: c).getLast? with
        | none =>
          exact absurd hbl (by simp [List.getLast?_append_of_ne_nil])
        | some last =>
          dsimp only
          by_cases hb3 : endsSentence last
          · rw [if_pos hb3]
            obtain ⟨x, y, hxy⟩ := flushBuf_adjacent h1 h2 hh hl b0 c
            exact ⟨flushBuf (b0 ++ s1 :: s2 :: c), by simp, x, y, hxy⟩
          · rw [if_neg hb3]
            have hre : (b0 ++ s1 :: s2 :: c) ++ [stripStr r] =
                b0 ++ s1 :: s2 :: (c ++ [stripStr r]) := by
              simp
            rw [hre]
            exact ih b0 (c ++ [stripStr r])

/-- Processing a prefix never separates two adjacent non-blank,
non-list, non-terminated lines: some paragraph of the final output
contains their stripped forms adjacent. -/
theorem mergeGo_no_split (l1 l2 : String) (post : List String)
    (h1 : stripStr l1 ≠ "") (h2 : stripStr l2 ≠ "")
    (hli1 : isListItem (stripStr l1) = false) (hli2 : isListItem (stripStr l2) = false)
    (hes : endsSentence (stripStr l1) = false) :
    ∀ (pre : List String) (buf : List String),
      ∃ p ∈ mergeGo (pre ++ l1 :: l2 :: post) buf,
        ∃ x y : List Char,
          p.data = x ++ ((stripStr l1).data ++ ' ' :: (stripStr l2).data) ++ y := by
  have hd1 : (stripStr l1).data ≠ [] := data_ne_nil_of_ne_empty h1
  have hd2 : (stripStr l2).data ≠ [] := data_ne_nil_of_ne_empty h2
  have hhh : ∀ c ∈ (stripStr l1).data.head?, pyWs c = false :=
    (pyStripList_no_ws_ends l1.data).1
  have hll : ∀ c ∈ (stripStr l2).data.getLast?, pyWs c = false :=
    (pyStripList_no_ws_ends l2.data).2
  have step2 : ∀ buf2 : List String,
      ∃ p ∈ mergeGo (l2 :: post) (buf2 ++ [stripStr l1]),
        ∃ x y : List Char,
          p.data = x ++ ((stripStr l1).data ++ ' ' :: (stripStr l2).data) ++ y := by
    intro buf2
    rw [mergeGo_cons, if_neg h2, if_neg (by simp [hli2])]
    cases hbl : (buf2 ++ [stripStr l1]).getLast? with
    | none => exact absurd hbl (by simp)
    | some last =>
      have hlast : last = stripStr l1 := by
        rw [List.getLast?_concat] at hbl
        exact (Option.some.injEq _ _ ▸ hbl.symm : _)
      dsimp only
      rw [if_neg (by rw [hlast, hes]; simp)]
      have hre : (buf2 ++ [stripStr l1]) ++ [stripStr l2] =
          buf2 ++ stripStr l1 :: stripStr l2 :: [] := by simp
      rw [hre]
      exact mergeGo_adjacent hd1 hd2 hhh hll post buf2 []
  intro pre
  induction pre with
  | nil =>
    intro buf
    simp only [List.nil_append]
    rw [mergeGo_cons, if_neg h1, if_neg (by simp [hli1])]
    cases hbl : buf.getLast? with
    | none =>
      dsimp only
      have := step2 buf
      simpa using this
    | some last =>
      dsimp only
      by_cases hb3 : endsSentence last
      · rw [if_pos hb3]
        obtain ⟨p, hp, hinf⟩ := step2 []
        refine ⟨p, ?_, hinf⟩
        simpa using Or.inr hp
      · rw [if_neg hb3]
        exact step2 buf
  | cons p0 pre ih =>
    intro buf
    simp only [List.cons_append]
    rw [mergeGo_cons]
    by_cases hb1 : stripStr p0 = ""
    · rw [if_pos hb1]
      obtain ⟨p, hp, hinf⟩ := ih []
      exact ⟨p, by simp [hp], hinf⟩
    · rw [if_neg hb1]
      by_cases hb2 : isListItem (stripStr p0)
      · rw [if_pos hb2]
        obtain ⟨p, hp, hinf⟩ := ih []
        refine ⟨p, ?_, hinf⟩
        rcases List.mem_append.mpr (Or.inr (List.mem_cons_of_mem _ hp)) with h
        exact h
      · rw [if_neg hb2]
        cases hbl : buf.getLast? with
        | none =>
          dsimp only
          exact ih (buf ++ [stripStr p0])
        | some last =>
          dsimp only
          by_cases hb3 : endsSentence last
          · rw [if_pos hb3]
            obtain ⟨p, hp, hinf⟩ := ih [stripStr p0]
            exact ⟨p, List.mem_cons_of_mem _ hp, hinf⟩
          · rw [if_neg hb3]
            exact ih (buf ++ [stripStr p0])

/-- C6: the Paragraph Merger (i) never merges a list-item line into a
preceding paragraph — the line flushes the pending buffer and is
emitted standalone, the loop restarting after it; (ii) never splits two
consecutive non-blank, non-list lines when the earlier one does not end
in sentence-terminal punctuation — their stripped forms appear adjacent
(space separated) inside a single output paragraph; (iii) discards
empty paragraphs. -/
theorem C6_paragraph_merger :
    (∀ (pre : List String) (l : String) (post : List String),
      isListItem (stripStr l) = true →
      merge_lines_into_paragraphs (pre ++ l :: post) =
        merge_lines_into_paragraphs pre ++ stripStr l ::
          merge_lines_into_paragraphs post) ∧
    (∀ (pre : List String) (l1 l2 : String) (post : List String),
      stripStr l1 ≠ "" → stripStr l2 ≠ "" →
      isListItem (stripStr l1) = false → isListItem (stripStr l2) = false →
      endsSentence (stripStr l1) = false →
      ∃ p ∈ merge_lines_into_paragraphs (pre ++ l1 :: l2 :: post),
        ∃ x y : List Char,
          p.data = x ++ ((stripStr l1).data ++ ' ' :: (stripStr l2).data) ++ y) ∧
    (∀ (lines : List String) (p : String),
      p ∈ merge_lines_into_paragraphs lines → p ≠ "") := by
  refine ⟨?_, ?_, ?_⟩
  · intro pre l post hl
    rw [merge_lines_into_paragraphs, mergeGo_list_item_split l hl pre post]
    rw [List.filter_append, List.filter_cons]
    rw [if_pos (by simp [isListItem_ne_empty hl])]
    rfl
  · intro pre l1 l2 post h1 h2 hli1 hli2 hes
    obtain ⟨p, hp, x, y, hinf⟩ := mergeGo_no_split l1 l2 post h1 h2 hli1 hli2 hes pre []
    refine ⟨p, ?_, x, y, hinf⟩
    rw [merge_lines_into_paragraphs]
    rw [List.mem_filter]
    refine ⟨hp, ?_⟩
    simp only [decide_eq_true_eq]
    intro hpe
    rw [hpe] at hinf
    have hd1 : (stripStr l1).data ≠ [] := data_ne_nil_of_ne_empty h1
    have : ("" : String).data = [] := rfl
    rw [this] at hinf
    rcases List.append_eq_nil.mp hinf.symm with ⟨hxy, hy⟩
    rcases List.append_eq_nil.mp hxy with ⟨hx, hmid⟩
    exact hd1 (List.append_eq_nil.mp hmid).1
  · intro lines p hp
    rw [merge_lines_into_paragraphs] at hp
    have := (List.mem_filter.mp hp).2
    simpa using this

/-- Witness for C6 at concrete inputs. -/
theorem C6_witness :
    (merge_lines_into_paragraphs (["x."] ++ "- item" :: ["y"]) =
      merge_lines_into_paragraphs ["x."] ++ stripStr "- item" ::
        merge_lines_into_paragraphs ["y"]) ∧
    (∃ p ∈ merge_lines_into_paragraphs ([] ++ "ab" :: "cd" :: []),
      ∃ x y : List Char,
        p.data = x ++ ((stripStr "ab").data ++ ' ' :: (stripStr "cd").data) ++ y) ∧
    "a" ≠ "" :=
  ⟨C6_paragraph_merger.1 ["x."] "- item" ["y"] (by decide),
   C6_paragraph_merger.2.1 [] "ab" "cd" [] (by decide) (by decide) (by decide)
     (by decide) (by decide),
   C6_paragraph_merger.2.2 ["a"] "a" (by decide)⟩

/-! ## Claim C5: whitespace normalization -/

/-- Spec-side description of a space/tab collapse: each maximal
`[ \t]+` run becomes a single space. -/
def stCollapse : List Char → List Char
  | [] => []
  | c :: t =>
    if spaceTab c = true then ' ' :: stCollapse (t.dropWhile spaceTab)
    else c :: stCollapse t
termination_by l => l.length
decreasing_by
  · simp only [List.length_cons]
    exact Nat.lt_succ_of_le (dropWhile_length_le _ _)
  · simp

/-- Spec-side image of one maximal whitespace run: a run containing a
newline collapses to a single newline; a newline-free run has its
space/tab subruns collapsed. -/
def wsRunImage (run : List Char) : List Char :=
  if '\n' ∈ run then ['\n'] else stCollapse run

/-- Spec-side normal form (before the final strip): non-whitespace
characters are kept unchanged, each maximal whitespace run is replaced
by its image.  Structured with explicit fuel (one unit per consumed
run or character; `fuel = length` always suffices). -/
def runsNormGo : Nat → List Char → List Char
  | _, [] => []
  | 0, _ :: _ => []
  | fuel + 1, c :: t =>
    if pyWs c = true then
      wsRunImage (c :: t.takeWhile pyWs) ++ runsNormGo fuel (t.dropWhile pyWs)
    else c :: runsNormGo fuel t

/-- The per-run normal form. -/
def runsNorm (l : List Char) : List Char := runsNormGo l.length l

/-- Spec-side counterpart of `normalize_whitespace`, stated per
maximal whitespace run. -/
def normSpec (s : String) : String := String.mk (pyStripList (runsNorm s.data))

theorem not_spaceTab_of_not_ws {c : Char} (h : ¬ pyWs c = true) : spaceTab c = false := by
  cases hst : spaceTab c
  · rfl
  · exact absurd (spaceTab_ws hst) h

/-- Inside a consumed space/tab run the scanner just skips until the
run ends. -/
theorem subSpaceTabGo_true_eq (t : List Char) :
    subSpaceTabGo t true = subSpaceTabGo (t.dropWhile spaceTab) false := by
  induction t with
  | nil => rfl
  | cons c t' ih =>
    by_cases hc : spaceTab c = true
    · rw [subSpaceTabGo, if_pos hc, List.dropWhile_cons_of_pos hc]
      simpa using ih
    · rw [subSpaceTabGo, if_neg hc, List.dropWhile_cons_of_neg hc,
        subSpaceTabGo, if_neg hc]

/-- The flag-based scanner computes the run collapse. -/
theorem subSpaceTab_eq_stCollapse : ∀ l : List Char, subSpaceTab l = stCollapse l := by
  have main : ∀ (n : Nat) (l : List Char), l.length ≤ n → subSpaceTab l = stCollapse l := by
    intro n
    induction n with
    | zero =>
      intro l hl
      rw [List.length_eq_zero.mp (Nat.le_zero.mp hl)]
      rw [stCollapse]
      rfl
    | succ n ih =>
      intro l hl
      cases l with
      | nil =>
        rw [stCollapse]
        rfl
      | cons c t =>
        by_cases hc : spaceTab c = true
        · rw [stCollapse, if_pos hc]
          show subSpaceTabGo (c :: t) false = _
          rw [subSpaceTabGo, if_pos hc, if_neg (by simp), subSpaceTabGo_true_eq]
          have : subSpaceTab (t.dropWhile spaceTab) = stCollapse (t.dropWhile spaceTab) := by
            apply ih
            have := dropWhile_length_le spaceTab t
            simp only [List.length_cons] at hl
            omega
          rw [← this]
          rfl
        · rw [stCollapse, if_neg hc]
          show subSpaceTabGo (c :: t) false = _
          rw [subSpaceTabGo, if_neg hc]
          have : subSpaceTab t = stCollapse t := by
            apply ih
            simp only [List.length_cons] at hl
            omega
          rw [← this]
          rfl
  exact fun l => main l.length l (Nat.le_refl _)

theorem takeWhile_ws_append_stop {B : List Char} (hB : nwHead B) :
    ∀ X : List Char, (X ++ B).takeWhile pyWs = X.takeWhile pyWs := by
  intro X
  induction X with
  | nil =>
    cases B with
    | nil => rfl
    | cons b B' =>
      simp only [nwHead] at hB
      rw [List.nil_append, List.takeWhile_cons_of_neg (by simp [hB])]
      rfl
  | cons c X' ih =>
    by_cases hc : pyWs c = true
    · rw [List.cons_append, List.takeWhile_cons_of_pos hc,
        List.takeWhile_cons_of_pos hc, ih]
    · rw [List.cons_append, List.takeWhile_cons_of_neg hc,
        List.takeWhile_cons_of_neg hc]

/-! Step equations for the flag-based scanners. -/

theorem go1_st_false {c : Char} (t : List Char) (hc : spaceTab c = true) :
    subSpaceTabGo (c :: t) false = ' ' :: subSpaceTabGo t true := by
  rw [subSpaceTabGo, if_pos hc, if_neg (by decide)]

theorem go1_st_true {c : Char} (t : List Char) (hc : spaceTab c = true) :
    subSpaceTabGo (c :: t) true = subSpaceTabGo t true := by
  rw [subSpaceTabGo, if_pos hc, if_pos rfl]

theorem go1_nst {c : Char} (t : List Char) (hc : spaceTab c = false) (f : Bool) :
    subSpaceTabGo (c :: t) f = c :: subSpaceTabGo t false := by
  rw [subSpaceTabGo, if_neg (by simp [hc])]

theorem go3_ws_true {c : Char} (t : List Char) (hc : pyWs c = true) :
    subNlWsGo (c :: t) true = subNlWsGo t true := by
  rw [subNlWsGo, if_pos hc, if_pos rfl]

theorem go3_ws_false {c : Char} (t : List Char) (hc : pyWs c = true) :
    subNlWsGo (c :: t) false = c :: subNlWsGo t (c == '\n') := by
  rw [subNlWsGo, if_pos hc, if_neg (by decide)]

theorem go3_nws {c : Char} (t : List Char) (hc : pyWs c = false) (f : Bool) :
    subNlWsGo (c :: t) f = c :: subNlWsGo t false := by
  rw [subNlWsGo, if_neg (by simp [hc])]

theorem subWsNl_cons (c : Char) (t : List Char) :
    subWsNl (c :: t) =
      (if (pyWs c && (t.takeWhile pyWs).contains '\n') = true then subWsNl t
       else c :: subWsNl t) := by
  rw [subWsNl]

theorem subSpaceTabGo_append {B : List Char} (hB : nwHead B) :
    ∀ (R : List Char) (f : Bool),
      subSpaceTabGo (R ++ B) f = subSpaceTabGo R f ++ subSpaceTabGo B false := by
  intro R
  induction R with
  | nil =>
    intro f
    cases B with
    | nil => cases f <;> rfl
    | cons b B' =>
      simp only [nwHead] at hB
      have hst : spaceTab b = false := not_spaceTab_of_not_ws (by simp [hB])
      rw [List.nil_append, go1_nst B' hst f, go1_nst B' hst false]
      rfl
  | cons c R' ih =>
    intro f
    by_cases hc : spaceTab c = true
    · cases f
      · rw [List.cons_append, go1_st_false _ hc, go1_st_false _ hc, ih true,
          List.cons_append]
      · rw [List.cons_append, go1_st_true _ hc, go1_st_true _ hc, ih true]
    · have hc' : spaceTab c = false := by simp [hc]
      rw [List.cons_append, go1_nst _ hc' f, go1_nst _ hc' f, ih false,
        List.cons_append]

theorem subWsNl_append {B : List Char} (hB : nwHead B) :
    ∀ R : List Char, subWsNl (R ++ B) = subWsNl R ++ subWsNl B := by
  intro R
  induction R with
  | nil => rfl
  | cons c R' ih =>
    rw [List.cons_append, subWsNl_cons, subWsNl_cons, takeWhile_ws_append_stop hB R']
    by_cases hcond : (pyWs c && (R'.takeWhile pyWs).contains '\n') = true
    · rw [if_pos hcond, if_pos hcond, ih]
    · rw [if_neg hcond, if_neg hcond, ih, List.cons_append]

theorem subNlWsGo_append {B : List Char} (hB : nwHead B) :
    ∀ (R : List Char) (f : Bool),
      subNlWsGo (R ++ B) f = subNlWsGo R f ++ subNlWsGo B false := by
  intro R
  induction R with
  | nil =>
    intro f
    cases B with
    | nil => cases f <;> rfl
    | cons b B' =>
      simp only [nwHead] at hB
      rw [List.nil_append, go3_nws B' (by simp [hB]) f, go3_nws B' (by simp [hB]) false]
      rfl
  | cons c R' ih =>
    intro f
    by_cases hc : pyWs c = true
    · cases f
      · rw [List.cons_append, go3_ws_false _ hc, go3_ws_false _ hc,
          ih (c == '\n'), List.cons_append]
      · rw [List.cons_append, go3_ws_true _ hc, go3_ws_true _ hc, ih true]
    · have hc' : pyWs c = false := by simp [hc]
      rw [List.cons_append, go3_nws _ hc' f, go3_nws _ hc' f, ih false,
        List.cons_append]

/-! Run-level behaviour of the three passes on all-whitespace runs. -/

theorem mem_nl_subSpaceTabGo : ∀ (l : List Char) (f : Bool),
    '\n' ∈ subSpaceTabGo l f ↔ '\n' ∈ l := by
  intro l
  induction l with
  | nil => intro f; rfl
  | cons c t ih =>
    intro f
    by_cases hc : spaceTab c = true
    · have hcn : ('\n' : Char) ≠ c := by
        intro he
        rw [← he] at hc
        exact absurd hc (by decide)
      cases f
      · rw [go1_st_false _ hc]
        simp [ih true, hcn, (by decide : ('\n' : Char) ≠ ' ')]
      · rw [go1_st_true _ hc]
        simp [ih true, hcn]
    · rw [go1_nst _ (by simp [hc]) f]
      simp [ih false]

theorem allWs_subSpaceTabGo : ∀ (l : List Char) (f : Bool),
    allWs l → allWs (subSpaceTabGo l f) := by
  intro l
  induction l with
  | nil => intro f _; intro c hc; simp [subSpaceTabGo] at hc
  | cons c t ih =>
    intro f hl
    have ht : allWs t := fun x hx => hl x (List.mem_cons_of_mem _ hx)
    by_cases hc : spaceTab c = true
    · cases f
      · rw [go1_st_false _ hc]
        intro x hx
        rcases List.mem_cons.mp hx with h | h
        · rw [h]; decide
        · exact ih true ht x h
      · rw [go1_st_true _ hc]
        exact ih true ht
    · rw [go1_nst _ (by simp [hc]) f]
      intro x hx
      rcases List.mem_cons.mp hx with h | h
      · rw [h]; exact hl c (by simp)
      · exact ih false ht x h

/-- On an all-whitespace input, the second pass keeps the suffix from
the last newline on (or everything, if there is no newline). -/
theorem subWsNl_allWs : ∀ S : List Char, allWs S →
    (('\n' ∈ S → ∃ D, subWsNl S = '\n' :: D ∧ allWs D ∧ '\n' ∉ D) ∧
     ('\n' ∉ S → subWsNl S = S)) := by
  intro S
  induction S with
  | nil =>
    intro _
    exact ⟨fun h => absurd h (by simp), fun _ => rfl⟩
  | cons c t ih =>
    intro hS
    have ht : allWs t := fun x hx => hS x (List.mem_cons_of_mem _ hx)
    have htw : t.takeWhile pyWs = t := takeWhile_all ht
    obtain ⟨ih1, ih2⟩ := ih ht
    by_cases hnt : '\n' ∈ t
    · have hcond : (pyWs c && (t.takeWhile pyWs).contains '\n') = true := by
        rw [htw]
        simp [hS c (by simp), hnt]
      rw [subWsNl_cons, if_pos hcond]
      refine ⟨fun _ => ih1 hnt, fun hn => absurd (List.mem_cons_of_mem _ hnt) hn⟩
    · have hcond : ¬ (pyWs c && (t.takeWhile pyWs).contains '\n') = true := by
        rw [htw]
        simp only [Bool.and_eq_true, not_and]
        intro _ hct
        exact hnt (List.elem_iff.mp hct)
      rw [subWsNl_cons, if_neg hcond]
      constructor
      · intro hmem
        rcases List.mem_cons.mp hmem with h | h
        · refine ⟨t, ?_, ht, hnt⟩
          rw [ih2 hnt, ← h]
        · exact absurd h hnt
      · intro hn
        rw [ih2 hnt]

/-- Inside an all-whitespace run already opened by a newline, the third
pass deletes everything. -/
theorem subNlWsGo_true_allWs : ∀ D : List Char, allWs D → subNlWsGo D true = [] := by
  intro D
  induction D with
  | nil => intro _; rfl
  | cons c t ih =>
    intro hD
    rw [go3_ws_true _ (hD c (by simp))]
    exact ih (fun x hx => hD x (List.mem_cons_of_mem _ hx))

/-- Without a newline the third pass is the identity. -/
theorem subNlWsGo_no_nl : ∀ X : List Char, '\n' ∉ X → subNlWsGo X false = X := by
  intro X
  induction X with
  | nil => intro _; rfl
  | cons c t ih =>
    intro hX
    have hcn : (c == '\n') = false := by
      simp only [beq_eq_false_iff_ne, ne_eq]
      intro he
      exact hX (by simp [he])
    have ht : '\n' ∉ t := fun h => hX (List.mem_cons_of_mem _ h)
    by_cases hc : pyWs c = true
    · rw [go3_ws_false _ hc, hcn, ih ht]
    · rw [go3_nws _ (by simp [hc]) false, ih ht]

/-- Composite behaviour of the three passes on one maximal
all-whitespace run. -/
theorem run_image (R : List Char) (hR : allWs R) :
    subNlWs (subWsNl (subSpaceTab R)) =
      (if '\n' ∈ R then ['\n'] else subSpaceTab R) := by
  have hS : allWs (subSpaceTab R) := allWs_subSpaceTabGo R false hR
  have hmem : '\n' ∈ subSpaceTab R ↔ '\n' ∈ R := mem_nl_subSpaceTabGo R false
  obtain ⟨hw1, hw2⟩ := subWsNl_allWs (subSpaceTab R) hS
  by_cases hnl : '\n' ∈ R
  · rw [if_pos hnl]
    obtain ⟨D, hD, hDws, hDnl⟩ := hw1 (hmem.mpr hnl)
    rw [hD]
    show subNlWsGo ('\n' :: D) false = ['\n']
    rw [go3_ws_false _ (by decide)]
    have : ('\n' == '\n') = true := by decide
    rw [this, subNlWsGo_true_allWs D hDws]
  · rw [if_neg hnl]
    rw [hw2 (fun h => hnl (hmem.mp h))]
    exact subNlWsGo_no_nl _ (fun h => hnl (hmem.mp h))

/-- The three regex passes of `normalize_whitespace` compute exactly
the per-run normal form. -/
theorem composite_eq_runsNorm : ∀ l : List Char,
    subNlWs (subWsNl (subSpaceTab l)) = runsNorm l := by
  have main : ∀ (n : Nat) (l : List Char), l.length ≤ n →
      subNlWs (subWsNl (subSpaceTab l)) = runsNormGo n l := by
    intro n
    induction n with
    | zero =>
      intro l hl
      rw [List.length_eq_zero.mp (Nat.le_zero.mp hl)]
      rfl
    | succ n ih =>
      intro l hl
      cases l with
      | nil => rfl
      | cons c t =>
        simp only [List.length_cons] at hl
        by_cases hc : pyWs c = true
        · have hl' : c :: t = (c :: t.takeWhile pyWs) ++ t.dropWhile pyWs := by
            simp [List.takeWhile_append_dropWhile]
          have hRws : allWs (c :: t.takeWhile pyWs) := by
            intro x hx
            rcases List.mem_cons.mp hx with h | h
            · rw [h]; exact hc
            · exact allWs_takeWhile t x h
          have hBh : nwHead (t.dropWhile pyWs) := nwHead_dropWhile t
          have hB2 : nwHead (subSpaceTabGo (t.dropWhile pyWs) false) := by
            cases hBc : t.dropWhile pyWs with
            | nil => trivial
            | cons b B' =>
              rw [hBc] at hBh
              simp only [nwHead] at hBh
              rw [go1_nst _ (not_spaceTab_of_not_ws (by simp [hBh])) false]
              exact hBh
          have hB3 : nwHead (subWsNl (subSpaceTabGo (t.dropWhile pyWs) false)) := by
            cases hBc : subSpaceTabGo (t.dropWhile pyWs) false with
            | nil => trivial
            | cons b B' =>
              rw [hBc] at hB2
              simp only [nwHead] at hB2
              rw [subWsNl_cons, if_neg (by simp [hB2])]
              exact hB2
          conv_lhs => rw [hl']
          show subNlWs (subWsNl (subSpaceTabGo ((c :: t.takeWhile pyWs) ++
            t.dropWhile pyWs) false)) = _
          rw [subSpaceTabGo_append hBh (c :: t.takeWhile pyWs) false]
          rw [subWsNl_append hB2 (subSpaceTabGo (c :: t.takeWhile pyWs) false)]
          show subNlWsGo _ false = _
          rw [subNlWsGo_append hB3 (subWsNl (subSpaceTabGo
            (c :: t.takeWhile pyWs) false)) false]
          have hrun := run_image (c :: t.takeWhile pyWs) hRws
          show subNlWs (subWsNl (subSpaceTab (c :: t.takeWhile pyWs))) ++
            subNlWs (subWsNl (subSpaceTab (t.dropWhile pyWs))) = _
          rw [hrun]
          rw [ih (t.dropWhile pyWs) (le_trans (dropWhile_length_le _ _) (by omega))]
          rw [runsNormGo, if_pos hc, wsRunImage, subSpaceTab_eq_stCollapse]
        · have hc' : pyWs c = false := by simp [hc]
          show subNlWs (subWsNl (subSpaceTabGo (c :: t) false)) = _
          rw [go1_nst _ (not_spaceTab_of_not_ws (by simp [hc'])) false]
          rw [subWsNl_cons, if_neg (by simp [hc'])]
          show subNlWsGo (c :: subWsNl (subSpaceTabGo t false)) false = _
          rw [go3_nws _ hc' false]
          show c :: subNlWs (subWsNl (subSpaceTab t)) = _
          rw [ih t (by omega)]
          rw [runsNormGo, if_neg (by simp [hc'])]
  exact fun l => main l.length l (Nat.le_refl _)

/-- C5 counterexample: the second substitution's `\s+` also matches
newlines, so a blank line between paragraphs IS removed:
`"a\n\nb"` normalizes to `"a\nb"`, refuting "interior newline
characters are not themselves removed". -/
theorem C5_counterexample :
    normalize_whitespace "a\n\nb" = "a\nb" ∧ ("a\nb" : String) ≠ "a\n\nb" :=
  ⟨by decide, by decide⟩

/-- C5 (amended): for every input string, whitespace normalization
keeps non-whitespace characters unchanged and in order, replaces every
maximal whitespace run containing a newline by a single newline (so
runs of newlines — blank lines included — collapse), collapses each
space/tab run inside a newline-free whitespace run to a single space,
and trims leading/trailing whitespace: it equals the per-run normal
form `normSpec`, and changes nothing else. -/
theorem C5_normalize_whitespace_runs :
    ∀ s : String, normalize_whitespace s = normSpec s := by
  intro s
  rw [normalize_whitespace, normSpec, composite_eq_runsNorm s.data]
